import Mathlib

/-!
# A verification development for the `SortedSet` skip-list/hash-map container

Shallow embedding of `src/sorted_set.hh` (template class `SortedSet`).

Representation. A skip list is determined by its level-0 node sequence
together with the level count drawn for each node at insertion time:

* `nodes : List (SkipListNode K)` is the level-0 chain, header excluded,
  in list order (1-based position `q` = the node reached by `q` level-0
  steps from the header).  The `mBackward` pointer of the node at
  position `q` is the node at `q-1` (NULL for `q = 1`), and `mTail` is
  the node at position `nodes.length` (NULL when empty).
* A node participates in levels `0 .. height-1`; the header participates
  in every level.  The forward pointer at level `i` from position `p`
  is the first position `q > p` whose node has `i < height` (`nextAt`),
  and the span stored on that edge is `q - p` (the code maintains
  exactly this span invariant through `private_insert` /
  `private_delete_node`: the sum of spans crossed from the header to a
  node equals its 1-based rank).
* `mLevel` is maintained by the code as the maximum level count in use:
  raised in `private_insert` when the drawn level exceeds it, and shrunk
  in `private_delete_node` while the topmost header forward pointer is
  NULL.  Hence `mLevel = max 1 (max over node heights)`, the derived
  `curLevel`.
* `mLength` is incremented/decremented exactly when a node is
  linked/unlinked, so it always equals `nodes.length`.
* `mDict` (a `std::unordered_map<KeyType, double>`) is modelled as an
  association list with unique keys; `operator[]`, `find` and `erase`
  become `dictSet`, `dictFind` and `dictErase`.

Scores (C++ `double`) are modelled as `ℚ`: every operation uses only
`<`, `≤`, `==` and (in `zincrby`) `+`, which agree with IEEE doubles on
the finite non-NaN values used throughout; `unsigned long` arithmetic
(in `zcount` and `zrank_generic`) is modelled on `ℕ` with an explicit
`% 2^64` (`sub64`).

The level descents of `private_insert`, `private_delete`,
`first_in_range`, `last_in_range`, `get_rank`, `get_element_by_rank`
and both range-delete helpers are translated literally (`advance` is
one `while (x->mLevel[i].mForward && cond) x = x->mLevel[i].mForward`
loop at level `i`; `descend` runs it for `i = mLevel-1 .. 0`).  The
random level generator `randomlevel()` is made an explicit input: each
inserting operation takes the drawn level `h` as an argument (the C++
generator always returns `1 ≤ h ≤ 32`).
-/

namespace SortedSetSpec

/-- C++ `class SkipListNode` (real node, `mIsHeader = false`): score, key and
the level count drawn at insertion.  The header is not stored. -/
structure SkipListNode (K : Type) where
  score : ℚ
  key : K
  height : Nat
deriving DecidableEq

/-- C++ `class SortedSet`: the skip list (level-0 chain with heights) plus the
`mDict` hash map. -/
structure SortedSet (K : Type) where
  nodes : List (SkipListNode K)
  dict : List (K × ℚ)
deriving DecidableEq

variable {K : Type} [DecidableEq K] {α : Type}

/-- `mDict.find(key)` (value part). -/
def dictFind : List (K × ℚ) → K → Option ℚ
  | [], _ => none
  | p :: rest, k => if p.1 = k then some p.2 else dictFind rest k

/-- `mDict[key] = score` (insert-or-assign). -/
def dictSet : List (K × ℚ) → K → ℚ → List (K × ℚ)
  | [], k, v => [(k, v)]
  | p :: rest, k, v => if p.1 = k then (k, v) :: rest else p :: dictSet rest k v

/-- `mDict.erase(key)` (keys are unique in the map). -/
def dictErase : List (K × ℚ) → K → List (K × ℚ)
  | [], _ => []
  | p :: rest, k => if p.1 = k then rest else p :: dictErase rest k

/-- Erase a batch of keys (the range-delete loops erase one key per removed
node). -/
def eraseKeys (d : List (K × ℚ)) (ks : List K) : List (K × ℚ) :=
  ks.foldl dictErase d

/-- Level count of the node at 1-based position `q` (0 if out of range). -/
def heightAt (ns : List (SkipListNode K)) (q : Nat) : Nat :=
  match ns[q-1]? with
  | some nd => nd.height
  | none => 0

/-- `x->mLevel[i].mForward` from position `p`: the first position `q > p`
whose node participates in level `i`; `none` is the NULL pointer.  The span
carried by this edge is `q - p`. -/
def nextAt (ns : List (SkipListNode K)) (i p : Nat) : Option Nat :=
  (List.range' (p+1) (ns.length - p)).find? fun q => decide (i < heightAt ns q)

/-- Evaluate a node predicate at position `q` (`false` past the end; the
traversals only apply this to positions delivered by `nextAt`). -/
def nodeTest (ns : List (SkipListNode K)) (f : SkipListNode K → Bool) (q : Nat) : Bool :=
  match ns[q-1]? with
  | some nd => f nd
  | none => false

/-- One level of a descent:
`while (x->mLevel[i].mForward && c (x->mLevel[i].mForward)) x = forward`.
Positions strictly increase, so fuel `ns.length` always suffices. -/
def advance (ns : List (SkipListNode K)) (i : Nat) (c : Nat → Bool) : Nat → Nat → Nat
  | 0, p => p
  | fuel+1, p =>
    match nextAt ns i p with
    | none => p
    | some q => if c q then advance ns i c fuel q else p

/-- Full descent `for (i = mLevel-1; i >= 0; i--) ...` from the header,
running `advance` at levels `L-1, …, 0`. -/
def descend (ns : List (SkipListNode K)) (c : Nat → Bool) : Nat → Nat → Nat
  | 0, p => p
  | i+1, p => descend ns c i (advance ns i c ns.length p)

/-- Derived `mLevel`: the code keeps it equal to the maximum node level in
use, at least 1. -/
def curLevel (ns : List (SkipListNode K)) : Nat :=
  ns.foldr (fun nd m => max nd.height m) 1

/-- The position reached by the search loop shared by `private_insert` and
`private_delete`: advance while `forward->mScore < score`.  The landing
position is `update[0]`; the new node is linked right after it (1-based
position `posBeforeScore + 1`). -/
def posBeforeScore (ns : List (SkipListNode K)) (score : ℚ) : Nat :=
  descend ns (nodeTest ns fun nd => decide (nd.score < score)) (curLevel ns) 0

/-- `private_insert(score, key)` with the drawn level `h` made explicit.
Span and backward bookkeeping is representation-derived (see header). -/
def private_insert (s : SortedSet K) (score : ℚ) (key : K) (h : Nat) : SortedSet K :=
  let p := posBeforeScore s.nodes score
  ⟨s.nodes.take p ++ ⟨score, key, h⟩ :: s.nodes.drop p, s.dict⟩

/-- `private_delete(score, key)`: the level-0 successor of the landing
position is the only deletion candidate; it is unlinked only when both score
and key match. -/
def private_delete (s : SortedSet K) (score : ℚ) (key : K) : SortedSet K × Bool :=
  let p := posBeforeScore s.nodes score
  match s.nodes[p]? with
  | some nd =>
    if nd.score = score ∧ nd.key = key then (⟨s.nodes.eraseIdx p, s.dict⟩, true)
    else (s, false)
  | none => (s, false)

/-- C++ `class RangeSpec`. -/
structure RangeSpec where
  min : ℚ
  max : ℚ
  minex : Bool
  maxex : Bool
deriving DecidableEq

/-- `score_gte_min`. -/
def score_gte_min (score : ℚ) (spec : RangeSpec) : Bool :=
  if spec.minex then decide (score > spec.min) else decide (score ≥ spec.min)

/-- `score_lte_max`. -/
def score_lte_max (score : ℚ) (spec : RangeSpec) : Bool :=
  if spec.maxex then decide (score < spec.max) else decide (score ≤ spec.max)

/-- The structural emptiness test opening `is_in_range`. -/
def structEmpty (r : RangeSpec) : Bool :=
  decide (r.min > r.max) || (decide (r.min = r.max) && (r.minex || r.maxex))

/-- A node's score satisfies both bounds of the range spec. -/
def inRangeB (nd : SkipListNode K) (r : RangeSpec) : Bool :=
  score_gte_min nd.score r && score_lte_max nd.score r

/-- `is_in_range`: structural test, then `mTail` against the min side and the
first node against the max side. -/
def is_in_range (s : SortedSet K) (r : RangeSpec) : Bool :=
  if structEmpty r then false
  else
    match s.nodes.getLast? with
    | none => false
    | some t =>
      if !score_gte_min t.score r then false
      else
        match s.nodes.head? with
        | none => false
        | some h0 => score_lte_max h0.score r

/-- `first_in_range`: returns the 1-based position of the first node in the
range (the code returns the node pointer).  The `assert(x != NULL)` after the
descent corresponds to the impossible `none` branch of the match. -/
def first_in_range (s : SortedSet K) (r : RangeSpec) : Option Nat :=
  if !is_in_range s r then none
  else
    let p := descend s.nodes (nodeTest s.nodes fun nd => !score_gte_min nd.score r)
              (curLevel s.nodes) 0
    match s.nodes[p]? with
    | some nd => if score_lte_max nd.score r then some (p+1) else none
    | none => none

/-- `last_in_range`: position of the last node in the range.  `p = 0` would
mean the landing node is the header (impossible once `is_in_range` holds). -/
def last_in_range (s : SortedSet K) (r : RangeSpec) : Option Nat :=
  if !is_in_range s r then none
  else
    let p := descend s.nodes (nodeTest s.nodes fun nd => score_lte_max nd.score r)
              (curLevel s.nodes) 0
    if p = 0 then none
    else
      match s.nodes[p-1]? with
      | some nd => if score_gte_min nd.score r then some p else none
      | none => none

/-- The level iteration of `get_rank`.  The accumulated `rank` equals the
current position (sum of spans crossed), so only the position is carried.
After each level the code tests `not x->mIsHeader && x->mKey == key`. -/
def get_rank_go (ns : List (SkipListNode K)) (score : ℚ) (key : K) : Nat → Nat → Nat
  | 0, _ => 0
  | i+1, p =>
    let q := advance ns i (nodeTest ns fun nd => decide (nd.score ≤ score)) ns.length p
    match ns[q-1]? with
    | some nd => if q ≠ 0 ∧ nd.key = key then q else get_rank_go ns score key i q
    | none => get_rank_go ns score key i q

/-- `get_rank(score, key)`: 1-based rank, 0 when not found by the
traversal. -/
def get_rank (s : SortedSet K) (score : ℚ) (key : K) : Nat :=
  get_rank_go s.nodes score key (curLevel s.nodes) 0

/-- The level iteration of `get_element_by_rank`; `traversed` again equals
the position. -/
def geb_go (ns : List (SkipListNode K)) (rank : Nat) : Nat → Nat → Option Nat
  | 0, _ => none
  | i+1, p =>
    let q := advance ns i (fun j => decide (j ≤ rank)) ns.length p
    if q = rank then some q else geb_go ns rank i q

/-- `get_element_by_rank(rank)`: 1-based position of the node with that rank
(`some 0` is the header, returned for `rank = 0`), `none` is NULL. -/
def get_element_by_rank (s : SortedSet K) (rank : Nat) : Option Nat :=
  geb_go s.nodes rank (curLevel s.nodes) 0

/-- Wraparound difference on C++ `unsigned long` (64-bit). -/
def sub64 (a b : Nat) : Nat :=
  (a % 2^64 + (2^64 - b % 2^64)) % 2^64

/-- The deletion loop of `private_delete_range_by_score`: starting at the
level-0 successor of the landing position (list index `p`), delete while the
node's score passes the max-side test, erasing each key from the dict. -/
def pdrbsLoop (r : RangeSpec) :
    Nat → List (SkipListNode K) → List (K × ℚ) → Nat →
    List (SkipListNode K) × List (K × ℚ) × Nat
  | 0, ns, d, _ => (ns, d, 0)
  | fuel+1, ns, d, p =>
    match ns[p]? with
    | none => (ns, d, 0)
    | some nd =>
      if (if r.maxex then decide (nd.score < r.max) else decide (nd.score ≤ r.max)) then
        let rec' := pdrbsLoop r fuel (ns.eraseIdx p) (dictErase d nd.key) p
        (rec'.1, rec'.2.1, rec'.2.2 + 1)
      else (ns, d, 0)

/-- `private_delete_range_by_score(range)`: descend while the next score
fails the min side (strictly below `mMin`, or `≤ mMin` when exclusive), then
run the deletion loop.  Returns the new state and the removed count. -/
def private_delete_range_by_score (s : SortedSet K) (r : RangeSpec) :
    SortedSet K × Nat :=
  let p := descend s.nodes
    (nodeTest s.nodes fun nd =>
      if r.minex then decide (nd.score ≤ r.min) else decide (nd.score < r.min))
    (curLevel s.nodes) 0
  let res := pdrbsLoop r (s.nodes.length + 1) s.nodes s.dict p
  (⟨res.1, res.2.1⟩, res.2.2)

/-- The deletion loop of `private_delete_range_by_rank`:
`while (x && traversed <= end)`. -/
def pdrbrLoop (e : Nat) :
    Nat → List (SkipListNode K) → List (K × ℚ) → Nat → Nat →
    List (SkipListNode K) × List (K × ℚ) × Nat
  | 0, ns, d, _, _ => (ns, d, 0)
  | fuel+1, ns, d, p, tr =>
    match ns[p]? with
    | none => (ns, d, 0)
    | some nd =>
      if tr ≤ e then
        let rec' := pdrbrLoop e fuel (ns.eraseIdx p) (dictErase d nd.key) p (tr+1)
        (rec'.1, rec'.2.1, rec'.2.2 + 1)
      else (ns, d, 0)

/-- `private_delete_range_by_rank(start, end)` (1-based inclusive): descend
while `traversed + span < start` (i.e. next position `< start`), then delete
while `traversed ≤ end`. -/
def private_delete_range_by_rank (s : SortedSet K) (start e : Nat) :
    SortedSet K × Nat :=
  let p := descend s.nodes (fun q => decide (q < start)) (curLevel s.nodes) 0
  let res := pdrbrLoop e (s.nodes.length + 1) s.nodes s.dict p (p+1)
  (⟨res.1, res.2.1⟩, res.2.2)

/-- `zadd_generic(key, score, incr)`, with the level `h` drawn for the
(possible) insertion made explicit.  Note the `private_delete` return value
is ignored, exactly as in the source. -/
def zadd_generic (s : SortedSet K) (key : K) (score : ℚ) (incr : Bool) (h : Nat) :
    SortedSet K :=
  match dictFind s.dict key with
  | some curscore =>
    let score := if incr then score + curscore else score
    if score ≠ curscore then
      let s1 := (private_delete s curscore key).1
      let s2 := private_insert s1 score key h
      ⟨s2.nodes, dictSet s2.dict key score⟩
    else s
  | none =>
    let s1 := private_insert s score key h
    ⟨s1.nodes, dictSet s1.dict key score⟩

/-- `zadd(key, score)`. -/
def zadd (s : SortedSet K) (key : K) (score : ℚ) (h : Nat) : SortedSet K :=
  zadd_generic s key score false h

/-- `zincrby(key, score)`. -/
def zincrby (s : SortedSet K) (key : K) (score : ℚ) (h : Nat) : SortedSet K :=
  zadd_generic s key score true h

/-- `zrem(key)`: the dict entry is erased whether or not `private_delete`
found the node. -/
def zrem (s : SortedSet K) (key : K) : SortedSet K :=
  match dictFind s.dict key with
  | some score =>
    let s1 := (private_delete s score key).1
    ⟨s1.nodes, dictErase s1.dict key⟩
  | none => s

/-- `zremrangebyscore(min, max, minex, maxex)`. -/
def zremrangebyscore (s : SortedSet K) (mn mx : ℚ) (minex maxex : Bool) :
    SortedSet K :=
  (private_delete_range_by_score s ⟨mn, mx, minex, maxex⟩).1

/-- `zremrangebyrank(start, end)`: index normalization, then the 1-based
range delete. -/
def zremrangebyrank (s : SortedSet K) (a b : Int) : SortedSet K :=
  let llen : Int := (s.nodes.length : Int)
  let a1 := if a < 0 then llen + a else a
  let b1 := if b < 0 then llen + b else b
  let a2 := if a1 < 0 then 0 else a1
  if a2 > b1 ∨ a2 ≥ llen then s
  else
    let b2 := if b1 ≥ llen then llen - 1 else b1
    (private_delete_range_by_rank s (a2+1).toNat (b2+1).toNat).1

/-- The emission loop of `zrange_generic` / `zrange_withscores_generic`
(`while (rangelen--) { assert(ln != NULL); push(f ln); step; }`), with the
pushed value abstracted (`mKey`, resp. `(mKey, mScore)`).  Position 0
encodes NULL (`mBackward` of the first node, or the forward pointer past the
tail); `none` means the assertion fired. -/
def zwalkP (ns : List (SkipListNode K)) (rev : Bool) (f : SkipListNode K → α) :
    Nat → Nat → Option (List α)
  | 0, _ => some []
  | len+1, j =>
    if j = 0 then none
    else
      match ns[j-1]? with
      | none => none
      | some nd =>
        (zwalkP ns rev f len (bif rev then j - 1 else j + 1)).map (f nd :: ·)

/-- Shared body of `zrange_generic` and `zrange_withscores_generic` (the two
functions are textually identical except for the pushed value `f`): index
normalization, trivial-endpoint check, then the walk. -/
def zrange_core (s : SortedSet K) (a b : Int) (rev : Bool) (f : SkipListNode K → α) :
    Option (List α) :=
  let llen : Int := (s.nodes.length : Int)
  let a1 := if a < 0 then llen + a else a
  let b1 := if b < 0 then llen + b else b
  let a2 := if a1 < 0 then 0 else a1
  if a2 > b1 ∨ a2 ≥ llen then some []
  else
    let b2 := if b1 ≥ llen then llen - 1 else b1
    let rangelen : Nat := (b2 - a2 + 1).toNat
    let ln : Nat :=
      if rev then
        if a2 > 0 then (get_element_by_rank s (llen - a2).toNat).getD 0
        else s.nodes.length
      else
        if a2 > 0 then (get_element_by_rank s (a2 + 1).toNat).getD 0
        else if s.nodes.length = 0 then 0 else 1
    zwalkP s.nodes rev f rangelen ln

/-- `zrange_generic(start, end, reverse, result)` (keys only). -/
def zrange_generic (s : SortedSet K) (a b : Int) (rev : Bool) : Option (List K) :=
  zrange_core s a b rev SkipListNode.key

/-- `zrange_withscores_generic(start, end, reverse, result)`. -/
def zrange_withscores_generic (s : SortedSet K) (a b : Int) (rev : Bool) :
    Option (List (K × ℚ)) :=
  zrange_core s a b rev fun nd => (nd.key, nd.score)

/-- The normalized walk length of `zrange_generic` (0 when the normalized
range is empty). -/
def rangelenOf (n : Nat) (a b : Int) : Nat :=
  let llen : Int := (n : Int)
  let a1 := if a < 0 then llen + a else a
  let b1 := if b < 0 then llen + b else b
  let a2 := if a1 < 0 then 0 else a1
  if a2 > b1 ∨ a2 ≥ llen then 0
  else
    let b2 := if b1 ≥ llen then llen - 1 else b1
    (b2 - a2 + 1).toNat

/-- The emission loop of `zrangebyscore_generic` (and its `withscores`
variant): emit while the node stays inside the opposite bound, stepping
backward (`rev`) or forward. -/
def zrbsWalk (ns : List (SkipListNode K)) (r : RangeSpec) (rev : Bool)
    (f : SkipListNode K → α) : Nat → Nat → List α
  | 0, _ => []
  | fuel+1, j =>
    if j = 0 then []
    else
      match ns[j-1]? with
      | none => []
      | some nd =>
        if rev then
          if score_gte_min nd.score r then f nd :: zrbsWalk ns r rev f fuel (j-1) else []
        else
          if score_lte_max nd.score r then f nd :: zrbsWalk ns r rev f fuel (j+1) else []

/-- Shared body of `zrangebyscore_generic` and its `withscores` variant:
note how `reverse` swaps both the bounds and the exclusivity flags when the
`RangeSpec` is built. -/
def zrbs_core (s : SortedSet K) (mn mx : ℚ) (rev : Bool) (minex maxex : Bool)
    (f : SkipListNode K → α) : List α :=
  let r : RangeSpec :=
    ⟨bif rev then mx else mn, bif rev then mn else mx,
     bif rev then maxex else minex, bif rev then minex else maxex⟩
  match (bif rev then last_in_range s r else first_in_range s r) with
  | none => []
  | some j => zrbsWalk s.nodes r rev f (s.nodes.length + 1) j

/-- `zrangebyscore_generic(min, max, reverse, result, minex, maxex)`. -/
def zrangebyscore_generic (s : SortedSet K) (mn mx : ℚ) (rev : Bool)
    (minex maxex : Bool) : List K :=
  zrbs_core s mn mx rev minex maxex SkipListNode.key

/-- `zrangebyscore_withscores_generic`. -/
def zrangebyscore_withscores_generic (s : SortedSet K) (mn mx : ℚ) (rev : Bool)
    (minex maxex : Bool) : List (K × ℚ) :=
  zrbs_core s mn mx rev minex maxex fun nd => (nd.key, nd.score)

/-- `zcount(min, max, minex, maxex)`: two boundary lookups plus rank
arithmetic on `unsigned long`. -/
def zcount (s : SortedSet K) (mn mx : ℚ) (minex maxex : Bool) : Nat :=
  let r : RangeSpec := ⟨mn, mx, minex, maxex⟩
  match first_in_range s r with
  | none => 0
  | some j =>
    match s.nodes[j-1]? with
    | none => 0
    | some zn =>
      let rank1 := get_rank s zn.score zn.key
      let count := sub64 s.nodes.length (sub64 rank1 1)
      match last_in_range s r with
      | none => count
      | some j2 =>
        match s.nodes[j2-1]? with
        | none => count
        | some zn2 =>
          let rank2 := get_rank s zn2.score zn2.key
          sub64 count (sub64 s.nodes.length rank2)

/-- `zcard()`. -/
def zcard (s : SortedSet K) : Nat :=
  s.nodes.length

/-- `zscore(key)`: the C++ `bool` + out-parameter pair becomes an
`Option`. -/
def zscore (s : SortedSet K) (key : K) : Option ℚ :=
  dictFind s.dict key

/-- `zrank_generic(key, reverse, rank)`: converts the 1-based skip-list rank
with `unsigned long` arithmetic. -/
def zrank_generic (s : SortedSet K) (key : K) (rev : Bool) : Option Nat :=
  match dictFind s.dict key with
  | some score =>
    let r := get_rank s score key
    some (if rev then sub64 s.nodes.length r else sub64 r 1)
  | none => none

/-- `zrank(key)`. -/
def zrank (s : SortedSet K) (key : K) : Option Nat :=
  zrank_generic s key false

/-- `zrevrank(key)`. -/
def zrevrank (s : SortedSet K) (key : K) : Option Nat :=
  zrank_generic s key true

/-- Level-0 scores are ascending (global invariant 1 of the spec). -/
def SortedNodes (ns : List (SkipListNode K)) : Prop :=
  List.Pairwise (fun a b => a.score ≤ b.score) ns

/-- Every drawn level count is positive (as `randomlevel()` guarantees). -/
def HeightsOK (ns : List (SkipListNode K)) : Prop :=
  ∀ nd ∈ ns, 1 ≤ nd.height

/-- The structural part of the skip-list invariant used by the theorems. -/
def SkipListWF (ns : List (SkipListNode K)) : Prop :=
  SortedNodes ns ∧ HeightsOK ns

instance (ns : List (SkipListNode K)) : Decidable (SortedNodes ns) := by
  unfold SortedNodes
  infer_instance

instance (ns : List (SkipListNode K)) : Decidable (HeightsOK ns) := by
  unfold HeightsOK
  infer_instance

/-- States reachable from the empty container by the public mutating
operations, with arbitrary positive drawn levels. -/
inductive Reachable : SortedSet K → Prop where
  | empty : Reachable ⟨[], []⟩
  | zadd_step (s : SortedSet K) (k : K) (sc : ℚ) (h : Nat) :
      Reachable s → 1 ≤ h → Reachable (zadd s k sc h)
  | zincrby_step (s : SortedSet K) (k : K) (sc : ℚ) (h : Nat) :
      Reachable s → 1 ≤ h → Reachable (zincrby s k sc h)
  | zrem_step (s : SortedSet K) (k : K) :
      Reachable s → Reachable (zrem s k)
  | zremrangebyscore_step (s : SortedSet K) (mn mx : ℚ) (minex maxex : Bool) :
      Reachable s → Reachable (zremrangebyscore s mn mx minex maxex)
  | zremrangebyrank_step (s : SortedSet K) (a b : Int) :
      Reachable s → Reachable (zremrangebyrank s a b)

/-- Fold a batch of `zadd` calls (key, score, drawn level) over the empty
container. -/
def addAll (ops : List (K × ℚ × Nat)) : SortedSet K :=
  ops.foldl (fun s op => zadd s op.1 op.2.1 op.2.2) ⟨[], []⟩

/-- The rational 3/2 (the score 1.5 of scenario 2), given in lowest terms so
that kernel evaluation stays structural. -/
def q3half : ℚ := ⟨3, 2, by decide, by decide⟩

/-- The empty container (fresh `SortedSet()`), over string keys. -/
def exEmpty : SortedSet String := ⟨[], []⟩

/-- `zadd("x", 5); zadd("y", 5)` with both levels drawn as 1. -/
def exTie : SortedSet String := zadd (zadd exEmpty "x" 5 1) "y" 5 1

/-- The same two calls, but the second draw gives level 2. -/
def exTie2 : SortedSet String := zadd (zadd exEmpty "x" 5 1) "y" 5 2

/-- `zadd("a",1); zadd("b",2); zadd("c",3)` (scenario 2 of the spec). -/
def exABC : SortedSet String :=
  zadd (zadd (zadd exEmpty "a" 1 1) "b" 2 1) "c" 3 1

/-- Ten keys `0..9` with strictly increasing scores `1..10` (scenario 4),
all levels drawn as 1. -/
def exTen : SortedSet Nat :=
  ⟨[⟨1, 0, 1⟩, ⟨2, 1, 1⟩, ⟨3, 2, 1⟩, ⟨4, 3, 1⟩, ⟨5, 4, 1⟩,
    ⟨6, 5, 1⟩, ⟨7, 6, 1⟩, ⟨8, 7, 1⟩, ⟨9, 8, 1⟩, ⟨10, 9, 1⟩],
   [(0, 1), (1, 2), (2, 3), (3, 4), (4, 5),
    (5, 6), (6, 7), (7, 8), (8, 9), (9, 10)]⟩

/-! ## Traversal lemmas: `nextAt`, `advance`, `descend` -/

theorem curLevel_cons (a : SkipListNode K) (t : List (SkipListNode K)) :
    curLevel (a :: t) = max a.height (curLevel t) := rfl

theorem curLevel_pos (ns : List (SkipListNode K)) : 1 ≤ curLevel ns := by
  induction ns with
  | nil => exact le_refl 1
  | cons a t ih => rw [curLevel_cons]; omega

theorem nextAt_some {ns : List (SkipListNode K)} {i p q : Nat}
    (h : nextAt ns i p = some q) : p < q ∧ q ≤ ns.length ∧ i < heightAt ns q := by
  have h1 := List.find?_some h
  have h2 := List.mem_of_find?_eq_some h
  rw [List.mem_range'_1] at h2
  exact ⟨by omega, by omega, by simpa using h1⟩

theorem nextAt_zero {ns : List (SkipListNode K)} (hh : HeightsOK ns) {p : Nat}
    (hp : p < ns.length) : nextAt ns 0 p = some (p+1) := by
  unfold nextAt
  have he : ns.length - p = (ns.length - p - 1) + 1 := by omega
  rw [he, List.range'_succ]
  apply List.find?_cons_of_pos
  have hg : ns[p+1-1]? = some ns[p] := by
    simpa using List.getElem?_eq_getElem hp
  have h1 : 1 ≤ (ns[p]).height := hh _ (List.getElem_mem hp)
  simp only [heightAt, hg]
  simpa using h1

theorem nextAt_past (ns : List (SkipListNode K)) (i : Nat) {p : Nat}
    (hp : ns.length ≤ p) : nextAt ns i p = none := by
  unfold nextAt
  have he : ns.length - p = 0 := by omega
  rw [he]
  rfl

theorem advance_le (ns : List (SkipListNode K)) (i : Nat) (c : Nat → Bool) :
    ∀ fuel p, p ≤ advance ns i c fuel p := by
  intro fuel
  induction fuel with
  | zero => intro p; exact le_refl p
  | succ n ih =>
    intro p
    cases hq : nextAt ns i p with
    | none => simp only [advance, hq]; exact le_refl p
    | some q =>
      have hlt := (nextAt_some hq).1
      simp only [advance, hq]
      by_cases hc : c q = true
      · rw [if_pos hc]; exact le_trans (le_of_lt hlt) (ih q)
      · rw [if_neg hc]

theorem advance_bound (ns : List (SkipListNode K)) (i : Nat) (c : Nat → Bool) :
    ∀ fuel p, p ≤ ns.length → advance ns i c fuel p ≤ ns.length := by
  intro fuel
  induction fuel with
  | zero => intro p hp; exact hp
  | succ n ih =>
    intro p hp
    cases hq : nextAt ns i p with
    | none => simp only [advance, hq]; exact hp
    | some q =>
      have hb := (nextAt_some hq).2.1
      simp only [advance, hq]
      by_cases hc : c q = true
      · rw [if_pos hc]; exact ih q hb
      · rw [if_neg hc]; exact hp

theorem advance_cases (ns : List (SkipListNode K)) (i : Nat) (c : Nat → Bool) :
    ∀ fuel p, advance ns i c fuel p = p ∨
      (c (advance ns i c fuel p) = true ∧ 1 ≤ advance ns i c fuel p ∧
        advance ns i c fuel p ≤ ns.length) := by
  intro fuel
  induction fuel with
  | zero => intro p; exact Or.inl rfl
  | succ n ih =>
    intro p
    cases hq : nextAt ns i p with
    | none => simp only [advance, hq]; exact Or.inl trivial
    | some q =>
      have hb := nextAt_some hq
      simp only [advance, hq]
      by_cases hc : c q = true
      · rw [if_pos hc]
        rcases ih q with h | h
        · rw [h]; exact Or.inr ⟨hc, by omega, hb.2.1⟩
        · exact Or.inr h
      · rw [if_neg hc]; exact Or.inl rfl

theorem advance_zero_stop (ns : List (SkipListNode K)) (hh : HeightsOK ns)
    (c : Nat → Bool) :
    ∀ fuel p, p ≤ ns.length → ns.length - p ≤ fuel →
      advance ns 0 c fuel p = ns.length ∨ c (advance ns 0 c fuel p + 1) = false := by
  intro fuel
  induction fuel with
  | zero =>
    intro p hp hf
    have : p = ns.length := by omega
    exact Or.inl this
  | succ n ih =>
    intro p hp hf
    by_cases hpn : p < ns.length
    · simp only [advance, nextAt_zero hh hpn]
      by_cases hc : c (p+1) = true
      · rw [if_pos hc]; exact ih (p+1) (by omega) (by omega)
      · rw [if_neg hc]
        exact Or.inr (by simpa using hc)
    · simp only [advance, nextAt_past ns 0 (Nat.le_of_not_lt hpn)]
      exact Or.inl (by omega)

theorem advance_le_tw (ns : List (SkipListNode K)) (i : Nat) (c : Nat → Bool) (tw : Nat)
    (hch : ∀ q, 1 ≤ q → q ≤ ns.length → (c q = true ↔ q ≤ tw)) :
    ∀ fuel p, p ≤ tw → advance ns i c fuel p ≤ tw := by
  intro fuel p hp
  rcases advance_cases ns i c fuel p with h | ⟨hc, h1, hn⟩
  · rw [h]; exact hp
  · exact (hch _ h1 hn).mp hc

theorem advance_zero_tw (ns : List (SkipListNode K)) (c : Nat → Bool) (tw : Nat)
    (hh : HeightsOK ns) (htw : tw ≤ ns.length)
    (hch : ∀ q, 1 ≤ q → q ≤ ns.length → (c q = true ↔ q ≤ tw)) :
    ∀ fuel p, p ≤ tw → ns.length - p ≤ fuel → advance ns 0 c fuel p = tw := by
  intro fuel p hp hf
  have hb := advance_le_tw ns 0 c tw hch fuel p hp
  rcases advance_zero_stop ns hh c fuel p (le_trans hp htw) hf with h | h
  · omega
  · by_contra hne
    have hlt : advance ns 0 c fuel p + 1 ≤ tw := by omega
    have := (hch (advance ns 0 c fuel p + 1) (by omega) (by omega)).mpr hlt
    rw [this] at h
    cases h

theorem descend_tw (ns : List (SkipListNode K)) (c : Nat → Bool) (tw : Nat)
    (hh : HeightsOK ns) (htw : tw ≤ ns.length)
    (hch : ∀ q, 1 ≤ q → q ≤ ns.length → (c q = true ↔ q ≤ tw)) :
    ∀ i, 1 ≤ i → ∀ p, p ≤ tw → descend ns c i p = tw := by
  intro i
  induction i with
  | zero => intro h; omega
  | succ n ih =>
    intro _ p hp
    cases n with
    | zero =>
      show descend ns c 0 (advance ns 0 c ns.length p) = tw
      unfold descend
      exact advance_zero_tw ns c tw hh htw hch ns.length p hp (by omega)
    | succ m =>
      show descend ns c (m+1) (advance ns (m+1) c ns.length p) = tw
      exact ih (by omega) _ (advance_le_tw ns (m+1) c tw hch ns.length p hp)

/-! ## Counting characterizations on the sorted level-0 chain -/

theorem countP_of_interval {β : Type} (p : β → Bool) :
    ∀ (l : List β) (a b : Nat),
      (∀ j (hj : j < l.length), (p l[j] = true ↔ a ≤ j ∧ j < b)) →
      l.countP p = min b l.length - min a l.length := by
  intro l
  induction l with
  | nil => intro a b _; simp
  | cons x t ih =>
    intro a b hch
    have h0 := hch 0 (by simp)
    simp only [List.getElem_cons_zero] at h0
    have ht : ∀ j (hj : j < t.length), (p t[j] = true ↔ (a-1) ≤ j ∧ j < b - 1) := by
      intro j hj
      have hx := hch (j+1) (by simp; omega)
      simp only [List.getElem_cons_succ] at hx
      rw [hx]
      omega
    rw [List.countP_cons, ih (a-1) (b-1) ht]
    by_cases hpx : p x = true
    · have hab := h0.mp hpx
      rw [if_pos hpx]
      simp only [List.length_cons]
      omega
    · have hab : ¬(a ≤ 0 ∧ 0 < b) := fun hc => hpx (h0.mpr hc)
      rw [if_neg hpx]
      simp only [List.length_cons]
      omega

theorem countP_of_char {β : Type} (p : β → Bool) (l : List β) (k : Nat)
    (h : ∀ j (hj : j < l.length), (p l[j] = true ↔ j < k)) :
    l.countP p = min k l.length := by
  have := countP_of_interval p l 0 k (by intro j hj; rw [h j hj]; omega)
  simpa using this

/-- On a score-sorted chain, a downward-closed node predicate holds exactly
on the prefix of length `countP`. -/
theorem sorted_pred_char (g : SkipListNode K → Bool)
    (hdc : ∀ a b : SkipListNode K, a.score ≤ b.score → g b = true → g a = true) :
    ∀ (ns : List (SkipListNode K)), SortedNodes ns →
      ∀ j (hj : j < ns.length), (g ns[j] = true ↔ j < ns.countP g) := by
  intro ns
  induction ns with
  | nil => intro _ j hj; simp at hj
  | cons a t ih =>
    intro hs j hj
    rw [SortedNodes, List.pairwise_cons] at hs
    obtain ⟨ha, ht⟩ := hs
    by_cases hga : g a = true
    · rw [List.countP_cons, if_pos hga]
      cases j with
      | zero =>
        simp only [List.getElem_cons_zero]
        constructor
        · intro _; omega
        · intro _; exact hga
      | succ m =>
        simp only [List.getElem_cons_succ]
        rw [ih ht m (by simp only [List.length_cons] at hj; omega)]
        omega
    · have hz : t.countP g = 0 := by
        rw [List.countP_eq_zero]
        intro b hb hgb
        exact hga (hdc a b (ha b hb) hgb)
      rw [List.countP_cons, if_neg hga, hz]
      cases j with
      | zero =>
        simp only [List.getElem_cons_zero]
        constructor
        · intro h; exact absurd h hga
        · intro h; omega
      | succ m =>
        simp only [List.getElem_cons_succ]
        constructor
        · intro h
          exact absurd
            (hdc a _ (ha _ (List.getElem_mem (by simp only [List.length_cons] at hj; omega))) h)
            hga
        · intro h; omega

/-- The landing position of a descent driven by a downward-closed node
predicate on a well-formed chain: the length of the true-prefix. -/
theorem descend_nodeTest (ns : List (SkipListNode K)) (hs : SortedNodes ns)
    (hh : HeightsOK ns) (g : SkipListNode K → Bool)
    (hdc : ∀ a b, a.score ≤ b.score → g b = true → g a = true) :
    descend ns (nodeTest ns g) (curLevel ns) 0 = ns.countP g := by
  apply descend_tw ns _ (ns.countP g) hh (List.countP_le_length g) ?_ (curLevel ns)
    (curLevel_pos ns) 0 (by omega)
  intro q h1 hq
  have hj : q - 1 < ns.length := by omega
  have hnt : nodeTest ns g q = g ns[q-1] := by
    simp [nodeTest, List.getElem?_eq_getElem hj]
  rw [hnt, sorted_pred_char g hdc ns hs (q-1) hj]
  omega

/-- The landing position of a descent driven by a position threshold
(`traversed + span < start`, i.e. next position `< start`). -/
theorem descend_posLt (ns : List (SkipListNode K)) (hh : HeightsOK ns) (start : Nat) :
    descend ns (fun q => decide (q < start)) (curLevel ns) 0 =
      min (start - 1) ns.length := by
  apply descend_tw ns _ (min (start - 1) ns.length) hh (by omega) ?_ (curLevel ns)
    (curLevel_pos ns) 0 (by omega)
  intro q h1 hq
  simp only [decide_eq_true_eq]
  omega

/-! ## `get_rank` and `get_element_by_rank` on well-formed chains -/

theorem get_rank_go_found (ns : List (SkipListNode K)) (sc : ℚ) (k : K) (r : Nat)
    (hh : HeightsOK ns) (hr1 : 1 ≤ r) (hrn : r ≤ ns.length)
    (hch : ∀ q, 1 ≤ q → q ≤ ns.length →
      ((nodeTest ns fun nd => decide (nd.score ≤ sc)) q = true ↔ q ≤ r))
    (hkey : ∀ q (hq : q < ns.length), (ns[q].key = k ↔ q + 1 = r)) :
    ∀ i, 1 ≤ i → ∀ p, p ≤ r → get_rank_go ns sc k i p = r := by
  intro i
  induction i with
  | zero => intro h; omega
  | succ n ih =>
    intro _ p hp
    cases n with
    | zero =>
      have hq : advance ns 0 (nodeTest ns fun nd => decide (nd.score ≤ sc))
          ns.length p = r :=
        advance_zero_tw ns _ r hh hrn hch ns.length p hp (by omega)
      simp only [get_rank_go, hq]
      have hj : r - 1 < ns.length := by omega
      rw [List.getElem?_eq_getElem hj]
      have hk : ns[r-1].key = k := (hkey (r-1) hj).mpr (by omega)
      dsimp only
      rw [if_pos ⟨by omega, hk⟩]
    | succ m =>
      have hqle := advance_le_tw ns (m+1)
        (nodeTest ns fun nd => decide (nd.score ≤ sc)) r hch ns.length p hp
      show (match ns[advance ns (m+1) (nodeTest ns fun nd => decide (nd.score ≤ sc))
          ns.length p - 1]? with
        | some nd => if advance ns (m+1) (nodeTest ns fun nd => decide (nd.score ≤ sc))
            ns.length p ≠ 0 ∧ nd.key = k then
            advance ns (m+1) (nodeTest ns fun nd => decide (nd.score ≤ sc)) ns.length p
          else get_rank_go ns sc k (m+1)
            (advance ns (m+1) (nodeTest ns fun nd => decide (nd.score ≤ sc)) ns.length p)
        | none => get_rank_go ns sc k (m+1)
            (advance ns (m+1) (nodeTest ns fun nd => decide (nd.score ≤ sc)) ns.length p)) = r
      generalize hqg : advance ns (m+1)
        (nodeTest ns fun nd => decide (nd.score ≤ sc)) ns.length p = q
      rw [hqg] at hqle
      by_cases hq0 : q = 0
      · subst hq0
        cases hg : ns[(0 : Nat) - 1]? with
        | none => exact ih (by omega) 0 (by omega)
        | some nd =>
          dsimp only
          rw [if_neg (by simp)]
          exact ih (by omega) 0 (by omega)
      · have hj : q - 1 < ns.length := by omega
        rw [List.getElem?_eq_getElem hj]
        dsimp only
        by_cases hk : ns[q-1].key = k
        · have : q = r := by have := (hkey (q-1) hj).mp hk; omega
          rw [if_pos ⟨hq0, hk⟩]; exact this
        · rw [if_neg (by
            intro hc
            exact hk hc.2)]
          exact ih (by omega) q hqle

/-- Positions with equal images under an injective-on-the-chain field
coincide. -/
theorem nodes_field_inj {β : Type} (f : SkipListNode K → β)
    (ns : List (SkipListNode K)) (hnd : (ns.map f).Nodup)
    (i j : Nat) (hi : i < ns.length) (hj : j < ns.length)
    (h : f ns[i] = f ns[j]) : i = j := by
  have hi' : i < (ns.map f).length := by simpa using hi
  have hj' : j < (ns.map f).length := by simpa using hj
  have hm : (ns.map f)[i] = (ns.map f)[j] := by
    rw [List.getElem_map, List.getElem_map]
    exact h
  exact (@List.Nodup.getElem_inj_iff _ _ hnd i hi' j hj').mp hm

/-- On a chain with positive heights, duplicate-free keys and
duplicate-free scores, an element stored at 0-based index `j` is found by
`get_rank` at its 1-based rank `j+1`, whatever the drawn levels are. -/
theorem get_rank_found (s : SortedSet K) (hs : SortedNodes s.nodes)
    (hh : HeightsOK s.nodes) (hks : (s.nodes.map SkipListNode.key).Nodup)
    (hss : (s.nodes.map SkipListNode.score).Nodup)
    (j : Nat) (hj : j < s.nodes.length) :
    get_rank s (s.nodes[j]).score (s.nodes[j]).key = j + 1 := by
  have hsc : ∀ i (hi : i < s.nodes.length),
      ((s.nodes[i]).score ≤ (s.nodes[j]).score ↔ i ≤ j) := by
    intro i hi
    constructor
    · intro hle
      by_contra hgt
      have hij : j < i := by omega
      have h1 : (s.nodes[j]).score ≤ (s.nodes[i]).score :=
        List.pairwise_iff_getElem.mp hs j i hj hi hij
      have h2 : (s.nodes[j]).score ≠ (s.nodes[i]).score := by
        intro he
        have hji := nodes_field_inj SkipListNode.score s.nodes hss j i hj hi he
        omega
      have : (s.nodes[i]).score < (s.nodes[j]).score ∨
          (s.nodes[i]).score = (s.nodes[j]).score := lt_or_eq_of_le hle
      rcases this with h | h
      · exact absurd (le_of_lt h) (not_le.mpr (lt_of_le_of_ne h1 h2))
      · exact h2 h.symm
    · intro hle
      rcases Nat.eq_or_lt_of_le hle with h | h
      · subst h; exact le_refl _
      · exact List.pairwise_iff_getElem.mp hs i j hi hj h
  have hch : ∀ q, 1 ≤ q → q ≤ s.nodes.length →
      ((nodeTest s.nodes fun nd => decide (nd.score ≤ (s.nodes[j]).score)) q = true ↔
        q ≤ j + 1) := by
    intro q h1 hq
    have hjq : q - 1 < s.nodes.length := by omega
    have : nodeTest s.nodes (fun nd => decide (nd.score ≤ (s.nodes[j]).score)) q =
        decide ((s.nodes[q-1]).score ≤ (s.nodes[j]).score) := by
      simp [nodeTest, List.getElem?_eq_getElem hjq]
    rw [this]
    simp only [decide_eq_true_eq]
    rw [hsc (q-1) hjq]
    omega
  have hkey : ∀ q (hq : q < s.nodes.length), ((s.nodes[q]).key = (s.nodes[j]).key ↔
      q + 1 = j + 1) := by
    intro q hq
    constructor
    · intro he
      have := nodes_field_inj SkipListNode.key s.nodes hks q j hq hj he
      omega
    · intro he
      have : q = j := by omega
      subst this; rfl
  exact get_rank_go_found s.nodes _ _ (j+1) hh (by omega) (by omega) hch hkey
    (curLevel s.nodes) (curLevel_pos s.nodes) 0 (by omega)

theorem geb_go_found (ns : List (SkipListNode K)) (rank : Nat)
    (hh : HeightsOK ns) (hr1 : 1 ≤ rank) (hrn : rank ≤ ns.length) :
    ∀ i, 1 ≤ i → ∀ p, p ≤ rank → geb_go ns rank i p = some rank := by
  have hch : ∀ q, 1 ≤ q → q ≤ ns.length →
      ((fun j => decide (j ≤ rank)) q = true ↔ q ≤ rank) := by
    intro q h1 hq; simp
  intro i
  induction i with
  | zero => intro h; omega
  | succ n ih =>
    intro _ p hp
    cases n with
    | zero =>
      have hq : advance ns 0 (fun j => decide (j ≤ rank)) ns.length p = rank :=
        advance_zero_tw ns _ rank hh hrn hch ns.length p hp (by omega)
      simp only [geb_go, hq, if_pos rfl]
      simp
    | succ m =>
      have hqle := advance_le_tw ns (m+1) (fun j => decide (j ≤ rank)) rank hch
        ns.length p hp
      simp only [geb_go]
      by_cases he : advance ns (m+1) (fun j => decide (j ≤ rank)) ns.length p = rank
      · rw [if_pos he, he]
      · rw [if_neg he]
        exact ih (by omega) _ hqle

/-- `get_element_by_rank` finds every in-range rank, whatever the drawn
levels are. -/
theorem get_element_by_rank_found (s : SortedSet K) (hh : HeightsOK s.nodes)
    (rank : Nat) (hr1 : 1 ≤ rank) (hrn : rank ≤ s.nodes.length) :
    get_element_by_rank s rank = some rank :=
  geb_go_found s.nodes rank hh hr1 hrn (curLevel s.nodes) (curLevel_pos s.nodes) 0
    (by omega)


/-! ## The insert position and preservation of the chain invariant -/

theorem take_mem_pred (g : SkipListNode K → Bool)
    (hdc : ∀ a b, a.score ≤ b.score → g b = true → g a = true)
    (ns : List (SkipListNode K)) (hs : SortedNodes ns)
    (a : SkipListNode K) (ha : a ∈ ns.take (ns.countP g)) : g a = true := by
  rw [List.mem_iff_getElem] at ha
  obtain ⟨i, hi, he⟩ := ha
  have hite : i < ns.countP g ∧ i < ns.length := by
    have := List.length_take (ns.countP g) ns
    omega
  rw [List.getElem_take] at he
  rw [← he]
  exact (sorted_pred_char g hdc ns hs i hite.2).mpr hite.1

theorem drop_mem_pred (g : SkipListNode K → Bool)
    (hdc : ∀ a b, a.score ≤ b.score → g b = true → g a = true)
    (ns : List (SkipListNode K)) (hs : SortedNodes ns)
    (b : SkipListNode K) (hb : b ∈ ns.drop (ns.countP g)) : g b = false := by
  rw [List.mem_iff_getElem] at hb
  obtain ⟨i, hi, he⟩ := hb
  have hlen : (ns.drop (ns.countP g)).length = ns.length - ns.countP g :=
    List.length_drop (ns.countP g) ns
  have hbd : ns.countP g + i < ns.length := by omega
  rw [List.getElem_drop] at he
  rw [← he]
  by_contra hgt
  have : ns.countP g + i < ns.countP g :=
    (sorted_pred_char g hdc ns hs _ hbd).mp (by
      cases hx : g ns[ns.countP g + i] with
      | false => exact absurd hx hgt
      | true => rfl)
  omega

/-- Inserting a node at the `countP (score < ·)` boundary of a sorted chain
keeps it sorted. -/
theorem sorted_insertAt (ns : List (SkipListNode K)) (hs : SortedNodes ns)
    (nd : SkipListNode K) :
    SortedNodes (ns.take (ns.countP fun b => decide (b.score < nd.score)) ++
      nd :: ns.drop (ns.countP fun b => decide (b.score < nd.score))) := by
  have hdc : ∀ a b : SkipListNode K, a.score ≤ b.score →
      (decide (b.score < nd.score)) = true → (decide (a.score < nd.score)) = true := by
    intro a b hab hb
    simp only [decide_eq_true_eq] at hb ⊢
    exact lt_of_le_of_lt hab hb
  rw [SortedNodes, List.pairwise_append]
  refine ⟨hs.sublist (List.take_sublist _ _), ?_, ?_⟩
  · rw [List.pairwise_cons]
    refine ⟨?_, hs.sublist (List.drop_sublist _ _)⟩
    intro b hb
    have hgb := drop_mem_pred _ hdc ns hs b hb
    exact le_of_not_lt (of_decide_eq_false hgb)
  · intro a ha b hbmem
    have hga := take_mem_pred _ hdc ns hs a ha
    simp only [decide_eq_true_eq] at hga
    rcases List.mem_cons.mp hbmem with h | h
    · subst h; exact le_of_lt hga
    · have hgb := drop_mem_pred _ hdc ns hs b h
      exact le_trans (le_of_lt hga) (le_of_not_lt (of_decide_eq_false hgb))


theorem private_insert_nodes (s : SortedSet K) (hs : SortedNodes s.nodes)
    (hh : HeightsOK s.nodes) (sc : ℚ) (k : K) (h : Nat) :
    (private_insert s sc k h).nodes =
      s.nodes.take (s.nodes.countP fun b => decide (b.score < sc)) ++
        ⟨sc, k, h⟩ :: s.nodes.drop (s.nodes.countP fun b => decide (b.score < sc)) := by
  show s.nodes.take (posBeforeScore s.nodes sc) ++
      ⟨sc, k, h⟩ :: s.nodes.drop (posBeforeScore s.nodes sc) = _
  rw [posBeforeScore, descend_nodeTest s.nodes hs hh _ (by
    intro a b hab hb
    simp only [decide_eq_true_eq] at hb ⊢
    exact lt_of_le_of_lt hab hb)]

theorem private_insert_wf (s : SortedSet K) (hwf : SkipListWF s.nodes)
    (sc : ℚ) (k : K) (h : Nat) (hh1 : 1 ≤ h) :
    SkipListWF (private_insert s sc k h).nodes := by
  rw [private_insert_nodes s hwf.1 hwf.2]
  constructor
  · exact sorted_insertAt s.nodes hwf.1 ⟨sc, k, h⟩
  · intro nd hnd
    rcases List.mem_append.mp hnd with hm | hm
    · exact hwf.2 nd ((List.take_sublist _ _).mem hm)
    · rcases List.mem_cons.mp hm with hm | hm
      · rw [hm]; exact hh1
      · exact hwf.2 nd ((List.drop_sublist _ _).mem hm)

theorem private_insert_dict (s : SortedSet K) (sc : ℚ) (k : K) (h : Nat) :
    (private_insert s sc k h).dict = s.dict := rfl

theorem private_insert_length (s : SortedSet K) (hs : SortedNodes s.nodes)
    (hh : HeightsOK s.nodes) (sc : ℚ) (k : K) (h : Nat) :
    (private_insert s sc k h).nodes.length = s.nodes.length + 1 := by
  rw [private_insert_nodes s hs hh]
  simp only [List.length_append, List.length_cons, List.length_take, List.length_drop]
  have := @List.countP_le_length _ (fun b => decide (b.score < sc)) s.nodes
  omega

theorem private_delete_nodes_sublist (s : SortedSet K) (sc : ℚ) (k : K) :
    List.Sublist (private_delete s sc k).1.nodes s.nodes := by
  simp only [private_delete]
  cases hx : s.nodes[posBeforeScore s.nodes sc]? with
  | none => exact List.Sublist.refl _
  | some nd =>
    dsimp only
    by_cases hc : nd.score = sc ∧ nd.key = k
    · rw [if_pos hc]; exact List.eraseIdx_sublist _ _
    · rw [if_neg hc]

theorem private_delete_dict (s : SortedSet K) (sc : ℚ) (k : K) :
    (private_delete s sc k).1.dict = s.dict := by
  simp only [private_delete]
  cases hx : s.nodes[posBeforeScore s.nodes sc]? with
  | none => rfl
  | some nd =>
    dsimp only
    by_cases hc : nd.score = sc ∧ nd.key = k
    · rw [if_pos hc]
    · rw [if_neg hc]

theorem wf_sublist {ns ms : List (SkipListNode K)} (h : List.Sublist ms ns)
    (hwf : SkipListWF ns) : SkipListWF ms :=
  ⟨hwf.1.sublist h, fun nd hnd => hwf.2 nd (h.mem hnd)⟩

theorem pdrbsLoop_sublist (r : RangeSpec) :
    ∀ (fuel : Nat) (ns : List (SkipListNode K)) (d : List (K × ℚ)) (p : Nat),
      List.Sublist (pdrbsLoop r fuel ns d p).1 ns := by
  intro fuel
  induction fuel with
  | zero => intro ns d p; exact List.Sublist.refl _
  | succ n ih =>
    intro ns d p
    show List.Sublist (pdrbsLoop r (n+1) ns d p).1 ns
    unfold pdrbsLoop
    cases ns[p]? with
    | none => exact List.Sublist.refl _
    | some nd =>
      dsimp only
      by_cases hc : (if r.maxex then decide (nd.score < r.max)
          else decide (nd.score ≤ r.max)) = true
      · rw [if_pos hc]
        exact List.Sublist.trans (ih _ _ _) (List.eraseIdx_sublist _ _)
      · rw [if_neg hc]

theorem pdrbrLoop_sublist (e : Nat) :
    ∀ (fuel : Nat) (ns : List (SkipListNode K)) (d : List (K × ℚ)) (p tr : Nat),
      List.Sublist (pdrbrLoop e fuel ns d p tr).1 ns := by
  intro fuel
  induction fuel with
  | zero => intro ns d p tr; exact List.Sublist.refl _
  | succ n ih =>
    intro ns d p tr
    unfold pdrbrLoop
    cases ns[p]? with
    | none => exact List.Sublist.refl _
    | some nd =>
      dsimp only
      by_cases hc : tr ≤ e
      · rw [if_pos hc]
        exact List.Sublist.trans (ih _ _ _ _) (List.eraseIdx_sublist _ _)
      · rw [if_neg hc]

theorem zadd_generic_wf (s : SortedSet K) (hwf : SkipListWF s.nodes)
    (k : K) (sc : ℚ) (incr : Bool) (h : Nat) (hh1 : 1 ≤ h) :
    SkipListWF (zadd_generic s k sc incr h).nodes := by
  unfold zadd_generic
  cases dictFind s.dict k with
  | some curscore =>
    dsimp only
    by_cases hne : (if incr then sc + curscore else sc) ≠ curscore
    · rw [if_pos hne]
      exact private_insert_wf _ (wf_sublist (private_delete_nodes_sublist s curscore k) hwf)
        _ _ _ hh1
    · rw [if_neg hne]; exact hwf
  | none =>
    exact private_insert_wf s hwf sc k h hh1

theorem zrem_wf (s : SortedSet K) (hwf : SkipListWF s.nodes) (k : K) :
    SkipListWF (zrem s k).nodes := by
  unfold zrem
  cases dictFind s.dict k with
  | some sc => exact wf_sublist (private_delete_nodes_sublist s sc k) hwf
  | none => exact hwf

theorem zremrangebyscore_wf (s : SortedSet K) (hwf : SkipListWF s.nodes)
    (mn mx : ℚ) (minex maxex : Bool) :
    SkipListWF (zremrangebyscore s mn mx minex maxex).nodes :=
  wf_sublist (pdrbsLoop_sublist _ _ _ _ _) hwf

theorem zremrangebyrank_wf (s : SortedSet K) (hwf : SkipListWF s.nodes)
    (a b : Int) : SkipListWF (zremrangebyrank s a b).nodes := by
  unfold zremrangebyrank
  by_cases hc : ((if (if a < 0 then (s.nodes.length : Int) + a else a) < 0 then 0
      else if a < 0 then (s.nodes.length : Int) + a else a) >
        (if b < 0 then (s.nodes.length : Int) + b else b) ∨
      (if (if a < 0 then (s.nodes.length : Int) + a else a) < 0 then 0
      else if a < 0 then (s.nodes.length : Int) + a else a) ≥ (s.nodes.length : Int))
  · rw [if_pos hc]; exact hwf
  · rw [if_neg hc]
    exact wf_sublist (pdrbrLoop_sublist _ _ _ _ _ _) hwf

/-- Every reachable state has an ascending level-0 chain with positive
levels, whatever the random draws were. -/
theorem reachable_wf (s : SortedSet K) (h : Reachable s) : SkipListWF s.nodes := by
  induction h with
  | empty => exact ⟨List.Pairwise.nil, fun nd hnd => absurd hnd (List.not_mem_nil nd)⟩
  | zadd_step s k sc hl hr hh ih => exact zadd_generic_wf s ih k sc false hl hh
  | zincrby_step s k sc hl hr hh ih => exact zadd_generic_wf s ih k sc true hl hh
  | zrem_step s k hr ih => exact zrem_wf s ih k
  | zremrangebyscore_step s mn mx minex maxex hr ih => exact zremrangebyscore_wf s ih mn mx minex maxex
  | zremrangebyrank_step s a b hr ih => exact zremrangebyrank_wf s ih a b


/-! ## Dict (hash map) lemmas -/

theorem dictFind_eq_none_of_not_mem (d : List (K × ℚ)) (k : K)
    (h : k ∉ d.map Prod.fst) : dictFind d k = none := by
  induction d with
  | nil => rfl
  | cons p rest ih =>
    simp only [List.map_cons, List.mem_cons] at h
    push_neg at h
    show (if p.1 = k then some p.2 else dictFind rest k) = none
    rw [if_neg (fun he => h.1 he.symm), ih h.2]

theorem dictSet_map_fst_of_absent (d : List (K × ℚ)) (k : K) (v : ℚ)
    (h : k ∉ d.map Prod.fst) :
    (dictSet d k v).map Prod.fst = d.map Prod.fst ++ [k] := by
  induction d with
  | nil => rfl
  | cons p rest ih =>
    simp only [List.map_cons, List.mem_cons] at h
    push_neg at h
    show ((if p.1 = k then (k, v) :: rest else p :: dictSet rest k v).map Prod.fst) = _
    rw [if_neg (fun he => h.1 he.symm)]
    simp only [List.map_cons, ih h.2, List.cons_append]

theorem dictFind_dictErase_ne (d : List (K × ℚ)) (k k2 : K) (h : k ≠ k2) :
    dictFind (dictErase d k2) k = dictFind d k := by
  induction d with
  | nil => rfl
  | cons p rest ih =>
    show dictFind (if p.1 = k2 then rest else p :: dictErase rest k2) k = _
    by_cases hp : p.1 = k2
    · rw [if_pos hp]
      show dictFind rest k = (if p.1 = k then some p.2 else dictFind rest k)
      rw [if_neg (by intro he; exact h (he ▸ hp))]
    · rw [if_neg hp]
      show (if p.1 = k then some p.2 else dictFind (dictErase rest k2) k) = _
      by_cases hk : p.1 = k
      · rw [if_pos hk]; rw [dictFind, if_pos hk]
      · rw [if_neg hk, ih, dictFind, if_neg hk]

theorem dictFind_eraseKeys_of_not_mem (ks : List K) :
    ∀ (d : List (K × ℚ)) (k : K), k ∉ ks →
      dictFind (eraseKeys d ks) k = dictFind d k := by
  induction ks with
  | nil => intro d k _; rfl
  | cons a t ih =>
    intro d k hk
    simp only [List.mem_cons] at hk
    push_neg at hk
    show dictFind (eraseKeys (dictErase d a) t) k = _
    rw [ih (dictErase d a) k hk.2, dictFind_dictErase_ne d k a hk.1]

/-! ## The emission walk of `zrange_generic` -/

theorem zwalkP_forward (ns : List (SkipListNode K)) (f : SkipListNode K → α) :
    ∀ (len j : Nat), 1 ≤ j → j - 1 + len ≤ ns.length →
      zwalkP ns false f len j = some (((ns.drop (j-1)).take len).map f) := by
  intro len
  induction len with
  | zero =>
    intro j h1 hb
    simp [zwalkP]
  | succ n ih =>
    intro j h1 hb
    have hj : j - 1 < ns.length := by omega
    simp only [zwalkP, if_neg (by omega : ¬ j = 0), List.getElem?_eq_getElem hj,
      Bool.cond_false]
    rw [ih (j+1) (by omega) (by omega)]
    simp only [Option.map_some']
    have hdc : ns.drop (j-1) = ns[j-1] :: ns.drop j := by
      have h2 := List.drop_eq_getElem_cons hj
      have h3 : j - 1 + 1 = j := by omega
      rw [h3] at h2
      exact h2
    rw [hdc]
    simp

theorem zwalkP_backward (ns : List (SkipListNode K)) (f : SkipListNode K → α) :
    ∀ (len j : Nat), j ≤ ns.length → len ≤ j →
      zwalkP ns true f len j = some ((((ns.take j).drop (j - len)).map f).reverse) := by
  intro len
  induction len with
  | zero =>
    intro j hj hl
    have : (ns.take j).drop (j - 0) = [] := by
      apply List.drop_eq_nil_of_le
      simp only [List.length_take]
      omega
    rw [this]
    simp [zwalkP]
  | succ n ih =>
    intro j hj hl
    have hj1 : j - 1 < ns.length := by omega
    simp only [zwalkP, if_neg (by omega : ¬ j = 0), List.getElem?_eq_getElem hj1,
      Bool.cond_true]
    rw [ih (j-1) (by omega) (by omega)]
    simp only [Option.map_some']
    congr 1
    have htj : ns.take j = ns.take (j-1) ++ [ns[j-1]] := by
      have h2 := @List.take_succ _ ns (j-1)
      rw [List.getElem?_eq_getElem hj1] at h2
      have h3 : j - 1 + 1 = j := by omega
      rw [h3] at h2
      simpa using h2
    rw [htj, List.drop_append_eq_append_drop]
    have hlen : (ns.take (j-1)).length = j - 1 := by
      simp only [List.length_take]; omega
    have hz : j - (n+1) - (ns.take (j-1)).length = 0 := by rw [hlen]; omega
    rw [hz]
    have he : j - 1 - n = j - (n + 1) := by omega
    rw [he]
    simp [List.reverse_append]

/-! ## `zrange_generic` normalization, walk safety and exact lengths -/

theorem zrange_core_spec (s : SortedSet K) (hh : HeightsOK s.nodes)
    (f : SkipListNode K → α) (a b : Int) (rev : Bool) :
    ∃ l, zrange_core s a b rev f = some l ∧
      l.length = rangelenOf s.nodes.length a b := by
  simp only [zrange_core, rangelenOf]
  by_cases hempty : (if (if a < 0 then (s.nodes.length : Int) + a else a) < 0 then 0
      else if a < 0 then (s.nodes.length : Int) + a else a) >
        (if b < 0 then (s.nodes.length : Int) + b else b) ∨
      (if (if a < 0 then (s.nodes.length : Int) + a else a) < 0 then 0
      else if a < 0 then (s.nodes.length : Int) + a else a) ≥ (s.nodes.length : Int)
  · rw [if_pos hempty, if_pos hempty]
    exact ⟨[], rfl, rfl⟩
  · rw [if_neg hempty, if_neg hempty]
    set n := s.nodes.length with hn
    set a1 : Int := if a < 0 then (n : Int) + a else a with ha1
    set b1 : Int := if b < 0 then (n : Int) + b else b with hb1
    set a2 : Int := if a1 < 0 then 0 else a1 with ha2
    set b2 : Int := if b1 ≥ (n : Int) then (n : Int) - 1 else b1 with hb2
    have ha2nn : 0 ≤ a2 := by rw [ha2]; split <;> omega
    push_neg at hempty
    obtain ⟨hab, han⟩ := hempty
    have hb2b : a2 ≤ b2 ∧ b2 ≤ (n : Int) - 1 := by
      rw [hb2]; constructor <;> (split <;> omega)
    have hn1 : 1 ≤ n := by omega
    set rangelen : Nat := (b2 - a2 + 1).toNat with hrl
    have hrlen : (rangelen : Int) = b2 - a2 + 1 := by
      rw [hrl]; omega
    cases rev with
    | false =>
      rw [if_neg (by simp : ¬ (false : Bool) = true)]
      by_cases ha0 : a2 > 0
      · rw [if_pos ha0]
        have hgeb : get_element_by_rank s (a2 + 1).toNat = some (a2 + 1).toNat :=
          get_element_by_rank_found s hh _ (by omega) (by omega)
        rw [hgeb]
        simp only [Option.getD_some]
        rw [zwalkP_forward s.nodes f rangelen (a2+1).toNat (by omega) (by omega)]
        refine ⟨_, rfl, ?_⟩
        simp only [List.length_map, List.length_take, List.length_drop]
        omega
      · rw [if_neg ha0, if_neg (by omega : ¬ n = 0)]
        rw [zwalkP_forward s.nodes f rangelen 1 (by omega) (by omega)]
        refine ⟨_, rfl, ?_⟩
        simp only [List.length_map, List.length_take, List.length_drop]
        omega
    | true =>
      rw [if_pos (rfl : (true : Bool) = true)]
      by_cases ha0 : a2 > 0
      · rw [if_pos ha0]
        have hgeb : get_element_by_rank s ((n : Int) - a2).toNat =
            some ((n : Int) - a2).toNat :=
          get_element_by_rank_found s hh _ (by omega) (by omega)
        rw [hgeb]
        simp only [Option.getD_some]
        rw [zwalkP_backward s.nodes f rangelen ((n : Int) - a2).toNat (by omega) (by omega)]
        refine ⟨_, rfl, ?_⟩
        simp only [List.length_reverse, List.length_map, List.length_drop, List.length_take]
        omega
      · rw [if_neg ha0]
        rw [zwalkP_backward s.nodes f rangelen n (by omega) (by omega)]
        refine ⟨_, rfl, ?_⟩
        simp only [List.length_reverse, List.length_map, List.length_drop, List.length_take]
        omega

theorem zrange_core_full (s : SortedSet K) (hh : HeightsOK s.nodes)
    (f : SkipListNode K → α) :
    zrange_core s 0 ((s.nodes.length : Int) - 1) false f = some (s.nodes.map f) ∧
    zrange_core s 0 ((s.nodes.length : Int) - 1) true f =
      some (s.nodes.map f).reverse := by
  by_cases hn0 : s.nodes.length = 0
  · have hnil := List.length_eq_zero.mp hn0
    constructor <;> simp [zrange_core, hnil]
  · have hn1 : 1 ≤ s.nodes.length := by omega
    constructor
    · simp only [zrange_core]
      set n := s.nodes.length with hn
      rw [if_neg (by omega : ¬ ((0:Int) < 0))]
      rw [if_neg (by omega : ¬ ((0:Int) < 0))]
      rw [if_neg (by omega : ¬ ((n : Int) - 1 < 0))]
      rw [if_neg (by omega : ¬ ((0:Int) > (n : Int) - 1 ∨ (0:Int) ≥ (n : Int)))]
      rw [if_neg (by omega : ¬ ((n : Int) - 1 ≥ (n : Int)))]
      rw [if_neg (by simp : ¬ (false : Bool) = true)]
      rw [if_neg (by omega : ¬ ((0:Int) > 0))]
      rw [if_neg hn0]
      rw [show ((n : Int) - 1 - 0 + 1).toNat = n from by omega]
      rw [zwalkP_forward s.nodes f n 1 (by omega) (by omega)]
      rw [hn]
      simp
    · simp only [zrange_core]
      set n := s.nodes.length with hn
      rw [if_neg (by omega : ¬ ((0:Int) < 0))]
      rw [if_neg (by omega : ¬ ((0:Int) < 0))]
      rw [if_neg (by omega : ¬ ((n : Int) - 1 < 0))]
      rw [if_neg (by omega : ¬ ((0:Int) > (n : Int) - 1 ∨ (0:Int) ≥ (n : Int)))]
      rw [if_neg (by omega : ¬ ((n : Int) - 1 ≥ (n : Int)))]
      rw [if_pos trivial]
      rw [if_neg (by omega : ¬ ((0:Int) > 0))]
      rw [show ((n : Int) - 1 - 0 + 1).toNat = n from by omega]
      rw [zwalkP_backward s.nodes f n n (by omega) (by omega)]
      rw [hn]
      simp [List.take_length]

/-! ## Score-range lemmas: `is_in_range`, boundary nodes, empty ranges -/

theorem gte_min_mono (r : RangeSpec) {a b : ℚ} (hab : a ≤ b)
    (h : score_gte_min a r = true) : score_gte_min b r = true := by
  unfold score_gte_min at h ⊢
  by_cases hm : r.minex = true
  · rw [if_pos hm] at h ⊢
    rw [decide_eq_true_eq] at h ⊢
    exact lt_of_lt_of_le h hab
  · rw [if_neg hm] at h ⊢
    rw [decide_eq_true_eq] at h ⊢
    exact le_trans h hab

theorem lte_max_mono (r : RangeSpec) {a b : ℚ} (hab : a ≤ b)
    (h : score_lte_max b r = true) : score_lte_max a r = true := by
  unfold score_lte_max at h ⊢
  by_cases hm : r.maxex = true
  · rw [if_pos hm] at h ⊢
    rw [decide_eq_true_eq] at h ⊢
    exact lt_of_le_of_lt hab h
  · rw [if_neg hm] at h ⊢
    rw [decide_eq_true_eq] at h ⊢
    exact le_trans hab h

theorem gte_min_le {sc : ℚ} {r : RangeSpec} (h : score_gte_min sc r = true) :
    r.min ≤ sc := by
  unfold score_gte_min at h
  by_cases hm : r.minex = true
  · rw [if_pos hm, decide_eq_true_eq] at h
    exact le_of_lt h
  · rw [if_neg hm, decide_eq_true_eq] at h
    exact h

theorem lte_max_le {sc : ℚ} {r : RangeSpec} (h : score_lte_max sc r = true) :
    sc ≤ r.max := by
  unfold score_lte_max at h
  by_cases hm : r.maxex = true
  · rw [if_pos hm, decide_eq_true_eq] at h
    exact le_of_lt h
  · rw [if_neg hm, decide_eq_true_eq] at h
    exact h

theorem gte_min_lt_of_minex {sc : ℚ} {r : RangeSpec}
    (h : score_gte_min sc r = true) (hm : r.minex = true) : r.min < sc := by
  unfold score_gte_min at h
  rw [if_pos hm, decide_eq_true_eq] at h
  exact h

theorem lte_max_lt_of_maxex {sc : ℚ} {r : RangeSpec}
    (h : score_lte_max sc r = true) (hm : r.maxex = true) : sc < r.max := by
  unfold score_lte_max at h
  rw [if_pos hm, decide_eq_true_eq] at h
  exact h

theorem structEmpty_no_node (r : RangeSpec) (h : structEmpty r = true) (sc : ℚ) :
    ¬(score_gte_min sc r = true ∧ score_lte_max sc r = true) := by
  rintro ⟨hg, hl⟩
  have h1 := gte_min_le hg
  have h2 := lte_max_le hl
  unfold structEmpty at h
  simp only [Bool.or_eq_true, Bool.and_eq_true, decide_eq_true_eq] at h
  rcases h with h | ⟨he, hex⟩
  · linarith
  · rcases hex with hex | hex
    · have := gte_min_lt_of_minex hg hex
      linarith
    · have := lte_max_lt_of_maxex hl hex
      linarith

theorem getElem_idx_congr {ns : List (SkipListNode K)} {i j : Nat} (hij : i = j)
    (hi : i < ns.length) (hj : j < ns.length) : ns[i] = ns[j] := by
  subst hij
  rfl

theorem is_in_range_of_mem (s : SortedSet K) (hs : SortedNodes s.nodes)
    (r : RangeSpec) (j : Nat) (hj : j < s.nodes.length)
    (hin : inRangeB s.nodes[j] r = true) : is_in_range s r = true := by
  rw [inRangeB, Bool.and_eq_true] at hin
  have hse : structEmpty r = false := by
    cases hx : structEmpty r with
    | false => rfl
    | true => exact absurd ⟨hin.1, hin.2⟩ (structEmpty_no_node r hx _)
  have hlast : s.nodes.getLast? = some s.nodes[s.nodes.length - 1] := by
    rw [List.getLast?_eq_getElem?, List.getElem?_eq_getElem (by omega)]
  have hhead : s.nodes.head? = some s.nodes[0] := by
    rw [List.head?_eq_getElem?, List.getElem?_eq_getElem (by omega)]
  have hgl : score_gte_min (s.nodes[s.nodes.length - 1]).score r = true := by
    rcases Nat.eq_or_lt_of_le (by omega : j ≤ s.nodes.length - 1) with he | hlt
    · rw [getElem_idx_congr (show s.nodes.length - 1 = j from he.symm) (by omega) hj]
      exact hin.1
    · exact gte_min_mono r
        (List.pairwise_iff_getElem.mp hs j (s.nodes.length - 1) hj (by omega) hlt) hin.1
  have hh0 : score_lte_max (s.nodes[0]).score r = true := by
    rcases Nat.eq_or_lt_of_le (by omega : 0 ≤ j) with he | hlt
    · rw [getElem_idx_congr (show (0 : Nat) = j from he) (by omega) hj]
      exact hin.2
    · exact lte_max_mono r
        (List.pairwise_iff_getElem.mp hs 0 j (by omega) hj hlt) hin.2
  unfold is_in_range
  rw [hse, if_neg (by simp), hlast, hhead]
  dsimp only
  rw [hgl]
  rw [if_neg (by simp)]
  exact hh0

/-- The boundary positions located by `first_in_range` / `last_in_range`
when some node lies in the range, together with the interval
characterization of range membership. -/
theorem in_range_bounds (s : SortedSet K) (hs : SortedNodes s.nodes)
    (hh : HeightsOK s.nodes) (r : RangeSpec) (j : Nat) (hj : j < s.nodes.length)
    (hin : inRangeB s.nodes[j] r = true) :
    first_in_range s r =
      some (s.nodes.countP (fun nd => !score_gte_min nd.score r) + 1) ∧
    last_in_range s r = some (s.nodes.countP (fun nd => score_lte_max nd.score r)) ∧
    s.nodes.countP (fun nd => !score_gte_min nd.score r) <
      s.nodes.countP (fun nd => score_lte_max nd.score r) ∧
    s.nodes.countP (fun nd => score_lte_max nd.score r) ≤ s.nodes.length ∧
    (∀ i (hi : i < s.nodes.length), (inRangeB s.nodes[i] r = true ↔
      (s.nodes.countP (fun nd => !score_gte_min nd.score r) ≤ i ∧
        i < s.nodes.countP (fun nd => score_lte_max nd.score r)))) := by
  have dcg : ∀ a b : SkipListNode K, a.score ≤ b.score →
      (!score_gte_min b.score r) = true → (!score_gte_min a.score r) = true := by
    intro a b hab hb
    simp only [Bool.not_eq_true'] at hb ⊢
    cases hx : score_gte_min a.score r with
    | false => rfl
    | true => rw [← hb]; exact (gte_min_mono r hab hx).symm ▸ rfl
  have dcl : ∀ a b : SkipListNode K, a.score ≤ b.score →
      score_lte_max b.score r = true → score_lte_max a.score r = true := by
    intro a b hab hb
    exact lte_max_mono r hab hb
  set F := s.nodes.countP (fun nd => !score_gte_min nd.score r) with hF
  set L := s.nodes.countP (fun nd => score_lte_max nd.score r) with hL
  have char_g : ∀ i (hi : i < s.nodes.length),
      ((!score_gte_min (s.nodes[i]).score r) = true ↔ i < F) := by
    intro i hi
    exact sorted_pred_char _ dcg s.nodes hs i hi
  have char_l : ∀ i (hi : i < s.nodes.length),
      (score_lte_max (s.nodes[i]).score r = true ↔ i < L) := by
    intro i hi
    exact sorted_pred_char _ dcl s.nodes hs i hi
  have hinj := hin
  rw [inRangeB, Bool.and_eq_true] at hinj
  have hFj : F ≤ j := by
    by_contra hc
    have := (char_g j hj).mpr (by omega)
    rw [hinj.1] at this
    simp at this
  have hjL : j < L := (char_l j hj).mp hinj.2
  have hFL : F < L := by omega
  have hLn : L ≤ s.nodes.length := by rw [hL]; exact List.countP_le_length _
  have hFn : F < s.nodes.length := by omega
  have hir := is_in_range_of_mem s hs r j hj hin
  have hchar : ∀ i (hi : i < s.nodes.length), (inRangeB s.nodes[i] r = true ↔
      (F ≤ i ∧ i < L)) := by
    intro i hi
    rw [inRangeB, Bool.and_eq_true]
    constructor
    · rintro ⟨hg, hl⟩
      refine ⟨?_, (char_l i hi).mp hl⟩
      by_contra hc
      have := (char_g i hi).mpr (by omega)
      rw [hg] at this
      simp at this
    · rintro ⟨hFi, hiL⟩
      constructor
      · cases hx : score_gte_min (s.nodes[i]).score r with
        | true => rfl
        | false =>
          have : i < F := (char_g i hi).mp (by rw [hx]; rfl)
          omega
      · exact (char_l i hi).mpr hiL
  refine ⟨?_, ?_, hFL, hLn, hchar⟩
  · unfold first_in_range
    rw [hir, if_neg (by simp)]
    have hd := descend_nodeTest s.nodes hs hh (fun nd => !score_gte_min nd.score r) dcg
    rw [hd, ← hF]
    dsimp only
    rw [List.getElem?_eq_getElem hFn]
    dsimp only
    rw [if_pos ((char_l F hFn).mpr hFL)]
  · unfold last_in_range
    rw [hir, if_neg (by simp)]
    have hd := descend_nodeTest s.nodes hs hh (fun nd => score_lte_max nd.score r) dcl
    rw [hd, ← hL]
    dsimp only
    rw [if_neg (by omega : ¬ L = 0)]
    rw [List.getElem?_eq_getElem (by omega : L - 1 < s.nodes.length)]
    dsimp only
    have hgL : score_gte_min (s.nodes[L-1]).score r = true := by
      cases hx : score_gte_min (s.nodes[L-1]).score r with
      | true => rfl
      | false =>
        have : L - 1 < F := (char_g (L-1) (by omega)).mp (by rw [hx]; rfl)
        omega
    rw [if_pos hgL]

/-- When no stored node lies in the range, both boundary searches return
NULL. -/
theorem no_node_bounds_none (s : SortedSet K) (hs : SortedNodes s.nodes)
    (hh : HeightsOK s.nodes) (r : RangeSpec)
    (hnone : ∀ j (hj : j < s.nodes.length), inRangeB s.nodes[j] r = false) :
    first_in_range s r = none ∧ last_in_range s r = none := by
  cases hir : is_in_range s r with
  | false =>
    constructor
    · unfold first_in_range
      rw [hir]
      rw [if_pos (by simp)]
    · unfold last_in_range
      rw [hir]
      rw [if_pos (by simp)]
  | true =>
    have dcg : ∀ a b : SkipListNode K, a.score ≤ b.score →
        (!score_gte_min b.score r) = true → (!score_gte_min a.score r) = true := by
      intro a b hab hb
      simp only [Bool.not_eq_true'] at hb ⊢
      cases hx : score_gte_min a.score r with
      | false => rfl
      | true => rw [← hb]; exact (gte_min_mono r hab hx).symm ▸ rfl
    have dcl : ∀ a b : SkipListNode K, a.score ≤ b.score →
        score_lte_max b.score r = true → score_lte_max a.score r = true := by
      intro a b hab hb
      exact lte_max_mono r hab hb
    have char_g := fun i hi => sorted_pred_char _ dcg s.nodes hs i hi
    have char_l := fun i hi => sorted_pred_char _ dcl s.nodes hs i hi
    constructor
    · unfold first_in_range
      rw [hir, if_neg (by simp)]
      have hd := descend_nodeTest s.nodes hs hh (fun nd => !score_gte_min nd.score r) dcg
      rw [hd]
      dsimp only
      cases hg : s.nodes[List.countP (fun nd => !score_gte_min nd.score r) s.nodes]? with
      | none => rfl
      | some nd =>
        dsimp only
        have hb : List.countP (fun nd => !score_gte_min nd.score r) s.nodes <
            s.nodes.length := by
          rcases lt_or_ge (List.countP (fun nd => !score_gte_min nd.score r) s.nodes)
            s.nodes.length with h | h
          · exact h
          · rw [List.getElem?_eq_none h] at hg
            cases hg
        rw [List.getElem?_eq_getElem hb] at hg
        have hnd : nd = s.nodes[List.countP (fun nd => !score_gte_min nd.score r) s.nodes] := by
          cases hg
          rfl
        have hgte : score_gte_min nd.score r = true := by
          rw [hnd]
          cases hx : score_gte_min
              (s.nodes[List.countP (fun nd => !score_gte_min nd.score r) s.nodes]).score r with
          | true => rfl
          | false =>
            have := (char_g _ hb).mp (by rw [hx]; rfl)
            omega
        have hlt : score_lte_max nd.score r = false := by
          have hfull := hnone _ hb
          rw [inRangeB] at hfull
          rw [← hnd] at hfull
          rw [hgte] at hfull
          cases hx : score_lte_max nd.score r with
          | false => rfl
          | true =>
            rw [hx] at hfull
            cases hfull
        rw [if_neg (by rw [hlt]; simp)]
    · unfold last_in_range
      rw [hir, if_neg (by simp)]
      have hd := descend_nodeTest s.nodes hs hh (fun nd => score_lte_max nd.score r) dcl
      rw [hd]
      dsimp only
      by_cases hz : List.countP (fun nd => score_lte_max nd.score r) s.nodes = 0
      · rw [if_pos hz]
      · rw [if_neg hz]
        have hb : List.countP (fun nd => score_lte_max nd.score r) s.nodes - 1 <
            s.nodes.length := by
          have := @List.countP_le_length _ (fun nd => score_lte_max nd.score r) s.nodes
          omega
        rw [List.getElem?_eq_getElem hb]
        dsimp only
        have hlte : score_lte_max
            (s.nodes[List.countP (fun nd => score_lte_max nd.score r) s.nodes - 1]).score r
              = true :=
          (char_l _ hb).mpr (by omega)
        have hgte : score_gte_min
            (s.nodes[List.countP (fun nd => score_lte_max nd.score r) s.nodes - 1]).score r
              = false := by
          have := hnone _ hb
          rw [inRangeB] at this
          cases hx : score_gte_min
              (s.nodes[List.countP (fun nd => score_lte_max nd.score r) s.nodes - 1]).score r with
          | false => rfl
          | true =>
            rw [hx, hlte] at this
            cases this
        rw [if_neg (by rw [hgte]; simp)]

/-- When no stored node lies in the range, `private_delete_range_by_score`
removes nothing and leaves both structures unchanged. -/
theorem pdrbs_noop (s : SortedSet K) (hs : SortedNodes s.nodes)
    (hh : HeightsOK s.nodes) (r : RangeSpec)
    (hnone : ∀ j (hj : j < s.nodes.length), inRangeB s.nodes[j] r = false) :
    private_delete_range_by_score s r = (s, 0) := by
  have dcm : ∀ a b : SkipListNode K, a.score ≤ b.score →
      (if r.minex then decide (b.score ≤ r.min) else decide (b.score < r.min)) = true →
      (if r.minex then decide (a.score ≤ r.min) else decide (a.score < r.min)) = true := by
    intro a b hab hb
    by_cases hm : r.minex = true
    · rw [if_pos hm] at hb ⊢
      rw [decide_eq_true_eq] at hb ⊢
      exact le_trans hab hb
    · rw [if_neg hm] at hb ⊢
      rw [decide_eq_true_eq] at hb ⊢
      exact lt_of_le_of_lt hab hb
  simp only [private_delete_range_by_score]
  rw [descend_nodeTest s.nodes hs hh _ dcm]
  set M := List.countP
    (fun nd => if r.minex then decide (nd.score ≤ r.min) else decide (nd.score < r.min))
    s.nodes with hM
  have hloop : pdrbsLoop r (s.nodes.length + 1) s.nodes s.dict M =
      (s.nodes, s.dict, 0) := by
    show pdrbsLoop r (s.nodes.length + 1) s.nodes s.dict M = (s.nodes, s.dict, 0)
    unfold pdrbsLoop
    cases hg : s.nodes[M]? with
    | none => rfl
    | some nd =>
      dsimp only
      have hb : M < s.nodes.length := by
        rcases lt_or_ge M s.nodes.length with h | h
        · exact h
        · rw [List.getElem?_eq_none h] at hg
          cases hg
      rw [List.getElem?_eq_getElem hb] at hg
      have hnd : nd = s.nodes[M] := by cases hg; rfl
      have hmc : (if r.minex then decide (nd.score ≤ r.min)
          else decide (nd.score < r.min)) = false := by
        rw [hnd]
        cases hx : (if r.minex then decide ((s.nodes[M]).score ≤ r.min)
            else decide ((s.nodes[M]).score < r.min)) with
        | false => rfl
        | true =>
          have := (sorted_pred_char _ dcm s.nodes hs M hb).mp hx
          omega
      have hgte : score_gte_min nd.score r = true := by
        unfold score_gte_min
        by_cases hm : r.minex = true
        · rw [if_pos hm] at hmc ⊢
          rw [decide_eq_true_eq]
          rw [decide_eq_false_iff_not] at hmc
          exact lt_of_not_le hmc
        · rw [if_neg hm] at hmc ⊢
          rw [decide_eq_true_eq]
          rw [decide_eq_false_iff_not] at hmc
          exact le_of_not_lt hmc
      have hlte : score_lte_max nd.score r = false := by
        have hfull := hnone _ hb
        rw [inRangeB] at hfull
        rw [← hnd, hgte] at hfull
        cases hx : score_lte_max nd.score r with
        | false => rfl
        | true =>
          rw [hx] at hfull
          cases hfull
      have hmax : (if r.maxex then decide (nd.score < r.max)
          else decide (nd.score ≤ r.max)) = false := hlte
      rw [hmax]
      rw [if_neg (by simp)]
  rw [hloop]

/-- Straight-line unrolling of the rank-range deletion loop: starting at
list index `p` with `traversed = tr`, it removes the `k = e + 1 - tr` next
nodes and erases their keys. -/
theorem pdrbrLoop_run (e : Nat) :
    ∀ (k fuel : Nat) (ns : List (SkipListNode K)) (d : List (K × ℚ)) (p tr : Nat),
      tr + k = e + 1 → k ≤ fuel → p + k ≤ ns.length →
      pdrbrLoop e fuel ns d p tr =
        (ns.take p ++ ns.drop (p + k),
         eraseKeys d (((ns.drop p).take k).map SkipListNode.key), k) := by
  intro k
  induction k with
  | zero =>
    intro fuel ns d p tr htr hf hp
    have hres : (ns.take p ++ ns.drop (p + 0),
        eraseKeys d (((ns.drop p).take 0).map SkipListNode.key), 0) = (ns, d, 0) := by
      rw [Nat.add_zero, List.take_append_drop]
      rfl
    rw [hres]
    cases fuel with
    | zero => rfl
    | succ m =>
      unfold pdrbrLoop
      cases ns[p]? with
      | none => rfl
      | some nd =>
        dsimp only
        rw [if_neg (by omega)]
  | succ k ih =>
    intro fuel ns d p tr htr hf hp
    cases fuel with
    | zero => omega
    | succ m =>
      unfold pdrbrLoop
      have hb : p < ns.length := by omega
      rw [List.getElem?_eq_getElem hb]
      dsimp only
      rw [if_pos (by omega : tr ≤ e)]
      have hidx : ns.eraseIdx p = ns.take p ++ ns.drop (p+1) :=
        List.eraseIdx_eq_take_drop_succ ns p
      have hlen' : (ns.eraseIdx p).length = ns.length - 1 := by
        rw [hidx]
        simp only [List.length_append, List.length_take, List.length_drop]
        omega
      rw [ih m (ns.eraseIdx p) (dictErase d (ns[p]).key) p (tr+1) (by omega) (by omega)
        (by omega)]
      have htake : (ns.eraseIdx p).take p = ns.take p := by
        rw [hidx, List.take_append_eq_append_take]
        have h1 : (ns.take p).take p = ns.take p := by
          rw [List.take_take]
          simp
        have h2 : p - (ns.take p).length = 0 := by
          simp only [List.length_take]
          omega
        rw [h1, h2]
        simp
      have hdrop : (ns.eraseIdx p).drop (p + k) = ns.drop (p + (k+1)) := by
        rw [hidx, List.drop_append_eq_append_drop]
        have h1 : (ns.take p).drop (p + k) = [] := by
          apply List.drop_eq_nil_of_le
          simp only [List.length_take]
          omega
        have h2 : p + k - (ns.take p).length = k := by
          simp only [List.length_take]
          omega
        rw [h1, h2, List.nil_append, List.drop_drop]
        congr 1
        omega
      have hdropp : (ns.eraseIdx p).drop p = ns.drop (p+1) := by
        rw [hidx, List.drop_append_eq_append_drop]
        have h1 : (ns.take p).drop p = [] := by
          apply List.drop_eq_nil_of_le
          simp only [List.length_take]
          omega
        have h2 : p - (ns.take p).length = 0 := by
          simp only [List.length_take]
          omega
        rw [h1, h2, List.nil_append, List.drop_zero]
      have hkeys : ((ns.drop p).take (k+1)).map SkipListNode.key =
          (ns[p]).key :: (((ns.drop (p+1)).take k).map SkipListNode.key) := by
        rw [List.drop_eq_getElem_cons hb]
        rfl
      rw [htake, hdrop, hdropp, hkeys]
      rfl

/-- `private_delete_range_by_rank` on a well-formed in-bounds 1-based range
`[start, e]`: the slice is cut out of the chain and its keys are erased from
the dict. -/
theorem private_delete_range_by_rank_spec (s : SortedSet K) (hh : HeightsOK s.nodes)
    (start e : Nat) (h1 : 1 ≤ start) (h1e : start ≤ e + 1) (hen : e ≤ s.nodes.length) :
    private_delete_range_by_rank s start e =
      (⟨s.nodes.take (start-1) ++ s.nodes.drop e,
        eraseKeys s.dict (((s.nodes.drop (start-1)).take (e+1-start)).map SkipListNode.key)⟩,
       e + 1 - start) := by
  simp only [private_delete_range_by_rank]
  rw [descend_posLt s.nodes hh start]
  rw [show min (start - 1) s.nodes.length = start - 1 from by omega]
  rw [show start - 1 + 1 = start from by omega]
  rw [pdrbrLoop_run e (e + 1 - start) (s.nodes.length + 1) s.nodes s.dict (start - 1)
    start (by omega) (by omega) (by omega)]
  rw [show start - 1 + (e + 1 - start) = e from by omega]

theorem sub64_small {a b : Nat} (ha : a < 2^64) (hba : b ≤ a) : sub64 a b = a - b := by
  unfold sub64
  rw [Nat.mod_eq_of_lt ha, Nat.mod_eq_of_lt (by omega : b < 2^64)]
  have he : a + (2^64 - b) = (a - b) + 2^64 := by omega
  rw [he, Nat.add_mod_right, Nat.mod_eq_of_lt (by omega)]

/-- On a chain with pairwise-distinct scores and keys, `zcount` returns the
exact number of stored nodes whose score satisfies both bounds. -/
theorem zcount_spec (s : SortedSet K) (hs : SortedNodes s.nodes)
    (hh : HeightsOK s.nodes) (hss : (s.nodes.map SkipListNode.score).Nodup)
    (hks : (s.nodes.map SkipListNode.key).Nodup) (hsz : s.nodes.length < 2^64)
    (mn mx : ℚ) (minex maxex : Bool) :
    zcount s mn mx minex maxex =
      s.nodes.countP (fun nd => inRangeB nd ⟨mn, mx, minex, maxex⟩) := by
  by_cases hex : ∃ j, ∃ (hj : j < s.nodes.length),
      inRangeB s.nodes[j] ⟨mn, mx, minex, maxex⟩ = true
  · obtain ⟨j, hj, hin⟩ := hex
    obtain ⟨hfir, hlast, hFL, hLn, hchar⟩ :=
      in_range_bounds s hs hh ⟨mn, mx, minex, maxex⟩ j hj hin
    set F := List.countP
      (fun nd => !score_gte_min nd.score ⟨mn, mx, minex, maxex⟩) s.nodes with hF
    set L := List.countP
      (fun nd => score_lte_max nd.score ⟨mn, mx, minex, maxex⟩) s.nodes with hL
    have hFn : F < s.nodes.length := by omega
    simp only [zcount]
    rw [hfir]
    dsimp only
    rw [Nat.add_sub_cancel, List.getElem?_eq_getElem hFn]
    dsimp only
    rw [get_rank_found s hs hh hks hss _ hFn]
    rw [hlast]
    dsimp only
    have hLn2 : L - 1 < s.nodes.length := by omega
    rw [List.getElem?_eq_getElem hLn2]
    dsimp only
    rw [get_rank_found s hs hh hks hss _ hLn2]
    rw [show L - 1 + 1 = L from by omega]
    rw [sub64_small (show F + 1 < 2^64 from by omega) (show 1 ≤ F + 1 from by omega)]
    rw [show F + 1 - 1 = F from by omega]
    rw [sub64_small hsz (show F ≤ s.nodes.length from by omega)]
    rw [sub64_small hsz (show L ≤ s.nodes.length from by omega)]
    rw [sub64_small (show s.nodes.length - F < 2^64 from by omega)
      (show s.nodes.length - L ≤ s.nodes.length - F from by omega)]
    rw [countP_of_interval _ s.nodes F L (by intro i hi; rw [hchar i hi])]
    omega
  · have hnone : ∀ i (hi : i < s.nodes.length),
        inRangeB s.nodes[i] ⟨mn, mx, minex, maxex⟩ = false := by
      intro i hi
      cases hx : inRangeB s.nodes[i] ⟨mn, mx, minex, maxex⟩ with
      | false => rfl
      | true => exact absurd ⟨i, hi, hx⟩ hex
    obtain ⟨hfn, _⟩ := no_node_bounds_none s hs hh ⟨mn, mx, minex, maxex⟩ hnone
    simp only [zcount]
    rw [hfn]
    have : s.nodes.countP (fun nd => inRangeB nd ⟨mn, mx, minex, maxex⟩) = 0 := by
      rw [List.countP_eq_zero]
      intro nd hnd
      rw [List.mem_iff_getElem] at hnd
      obtain ⟨i, hi, he⟩ := hnd
      rw [← he]
      rw [hnone i hi]
      simp
    rw [this]

/-! ## Batch insertion: keys, order and cardinality -/

theorem zadd_fresh (s : SortedSet K) (k : K) (sc : ℚ) (h : Nat)
    (habs : dictFind s.dict k = none) :
    zadd s k sc h = ⟨(private_insert s sc k h).nodes, dictSet s.dict k sc⟩ := by
  unfold zadd zadd_generic
  rw [habs]
  rfl

theorem map_key_insert (s : SortedSet K) (hs : SortedNodes s.nodes)
    (hh : HeightsOK s.nodes) (sc : ℚ) (k : K) (h : Nat) :
    ((private_insert s sc k h).nodes.map SkipListNode.key).Perm
      (k :: s.nodes.map SkipListNode.key) := by
  rw [private_insert_nodes s hs hh]
  rw [List.map_append, List.map_cons]
  have hpm := @List.perm_middle _ k
    ((s.nodes.take (s.nodes.countP fun b => decide (b.score < sc))).map SkipListNode.key)
    ((s.nodes.drop (s.nodes.countP fun b => decide (b.score < sc))).map SkipListNode.key)
  refine List.Perm.trans hpm ?_
  rw [← List.map_append, List.take_append_drop]

theorem addAll_fold_inv :
    ∀ (ops : List (K × ℚ × Nat)) (s : SortedSet K),
      SkipListWF s.nodes →
      (s.dict.map Prod.fst).Perm (s.nodes.map SkipListNode.key) →
      (ops.map (fun op => op.1)).Nodup →
      (∀ op ∈ ops, op.1 ∉ s.dict.map Prod.fst) →
      (∀ op ∈ ops, 1 ≤ op.2.2) →
      SkipListWF ((ops.foldl (fun t op => zadd t op.1 op.2.1 op.2.2) s).nodes) ∧
      (((ops.foldl (fun t op => zadd t op.1 op.2.1 op.2.2) s).nodes.map
          SkipListNode.key).Perm
        (s.nodes.map SkipListNode.key ++ ops.map (fun op => op.1))) ∧
      (((ops.foldl (fun t op => zadd t op.1 op.2.1 op.2.2) s).dict.map Prod.fst).Perm
        ((ops.foldl (fun t op => zadd t op.1 op.2.1 op.2.2) s).nodes.map
          SkipListNode.key)) ∧
      (ops.foldl (fun t op => zadd t op.1 op.2.1 op.2.2) s).nodes.length =
        s.nodes.length + ops.length := by
  intro ops
  induction ops with
  | nil =>
    intro s hwf hdk _ _ _
    refine ⟨hwf, ?_, hdk, rfl⟩
    simp
  | cons op rest ih =>
    intro s hwf hdk hnd hfresh hhts
    have habs : dictFind s.dict op.1 = none :=
      dictFind_eq_none_of_not_mem _ _ (hfresh op (List.mem_cons_self op rest))
    have hz := zadd_fresh s op.1 op.2.1 op.2.2 habs
    have hwf' : SkipListWF (zadd s op.1 op.2.1 op.2.2).nodes :=
      zadd_generic_wf s hwf op.1 op.2.1 false op.2.2
        (hhts op (List.mem_cons_self op rest))
    have hkeyperm : ((zadd s op.1 op.2.1 op.2.2).nodes.map SkipListNode.key).Perm
        (op.1 :: s.nodes.map SkipListNode.key) := by
      rw [hz]
      exact map_key_insert s hwf.1 hwf.2 op.2.1 op.1 op.2.2
    have hdictfst : (zadd s op.1 op.2.1 op.2.2).dict.map Prod.fst =
        s.dict.map Prod.fst ++ [op.1] := by
      rw [hz]
      exact dictSet_map_fst_of_absent s.dict op.1 op.2.1
        (hfresh op (List.mem_cons_self op rest))
    have hdk' : ((zadd s op.1 op.2.1 op.2.2).dict.map Prod.fst).Perm
        ((zadd s op.1 op.2.1 op.2.2).nodes.map SkipListNode.key) := by
      rw [hdictfst]
      refine List.Perm.trans ?_ hkeyperm.symm
      refine List.Perm.trans (List.perm_append_comm) ?_
      exact List.Perm.cons op.1 hdk
    have hnd' : (rest.map (fun op => op.1)).Nodup := by
      rw [List.map_cons, List.nodup_cons] at hnd
      exact hnd.2
    have hfresh' : ∀ op2 ∈ rest, op2.1 ∉ (zadd s op.1 op.2.1 op.2.2).dict.map Prod.fst := by
      intro op2 hop2
      rw [hdictfst]
      rw [List.mem_append]
      rintro (hmem | hmem)
      · exact hfresh op2 (List.mem_cons_of_mem op hop2) hmem
      · rw [List.map_cons, List.nodup_cons] at hnd
        rcases List.mem_singleton.mp hmem with he
        exact hnd.1 (he ▸ List.mem_map_of_mem (fun o => o.1) hop2)
    have hhts' : ∀ op2 ∈ rest, 1 ≤ op2.2.2 := fun op2 hop2 =>
      hhts op2 (List.mem_cons_of_mem op hop2)
    have hlen' : (zadd s op.1 op.2.1 op.2.2).nodes.length = s.nodes.length + 1 := by
      rw [hz]
      exact private_insert_length s hwf.1 hwf.2 op.2.1 op.1 op.2.2
    obtain ⟨c1, c2, c3, c4⟩ := ih (zadd s op.1 op.2.1 op.2.2) hwf' hdk' hnd' hfresh' hhts'
    refine ⟨c1, ?_, c3, ?_⟩
    · show ((rest.foldl (fun t op => zadd t op.1 op.2.1 op.2.2)
          (zadd s op.1 op.2.1 op.2.2)).nodes.map SkipListNode.key).Perm _
      refine List.Perm.trans c2 ?_
      rw [List.map_cons]
      refine List.Perm.trans (List.Perm.append_right _ hkeyperm) ?_
      exact (@List.perm_middle _ op.1 (s.nodes.map SkipListNode.key)
        (rest.map (fun op => op.1))).symm
    · show (rest.foldl (fun t op => zadd t op.1 op.2.1 op.2.2)
          (zadd s op.1 op.2.1 op.2.2)).nodes.length = _
      rw [c4, hlen']
      simp only [List.length_cons]
      omega

theorem countP_lt_score (s : SortedSet K) (hs : SortedNodes s.nodes)
    (hss : (s.nodes.map SkipListNode.score).Nodup) (j : Nat) (hj : j < s.nodes.length) :
    s.nodes.countP (fun nd => decide (nd.score < (s.nodes[j]).score)) = j := by
  have hchar : ∀ i (hi : i < s.nodes.length),
      ((fun nd => decide (nd.score < (s.nodes[j]).score)) s.nodes[i] = true ↔ i < j) := by
    intro i hi
    simp only [decide_eq_true_eq]
    constructor
    · intro hlt
      by_contra hc
      have hji : j ≤ i := by omega
      rcases Nat.eq_or_lt_of_le hji with he | hl
      · rw [getElem_idx_congr he.symm hi hj] at hlt
        exact absurd hlt (lt_irrefl _)
      · have := List.pairwise_iff_getElem.mp hs j i hj hi hl
        exact absurd hlt (not_lt.mpr this)
    · intro hij
      have hle := List.pairwise_iff_getElem.mp hs i j hi hj hij
      have hne : (s.nodes[i]).score ≠ (s.nodes[j]).score := by
        intro he
        have := nodes_field_inj SkipListNode.score s.nodes hss i j hi hj he
        omega
      exact lt_of_le_of_ne hle hne
  rw [countP_of_char _ s.nodes j hchar]
  omega

/-- On a sorted chain, the `countP` split point coincides with the
`takeWhile` / `dropWhile` split for a downward-closed predicate. -/
theorem take_drop_countP_eq (g : SkipListNode K → Bool)
    (hdc : ∀ a b, a.score ≤ b.score → g b = true → g a = true) :
    ∀ ns : List (SkipListNode K), SortedNodes ns →
      ns.take (ns.countP g) = ns.takeWhile g ∧ ns.drop (ns.countP g) = ns.dropWhile g := by
  intro ns
  induction ns with
  | nil => intro _; constructor <;> rfl
  | cons a t ih =>
    intro hs
    rw [SortedNodes, List.pairwise_cons] at hs
    obtain ⟨ha, ht⟩ := hs
    by_cases hga : g a = true
    · rw [List.countP_cons, if_pos hga]
      rw [List.takeWhile_cons_of_pos hga, List.dropWhile_cons_of_pos hga]
      obtain ⟨iht, ihd⟩ := ih ht
      constructor
      · rw [List.take_succ_cons, iht]
      · rw [List.drop_succ_cons, ihd]
    · have hz : t.countP g = 0 := by
        rw [List.countP_eq_zero]
        intro b hb hgb
        exact hga (hdc a b (ha b hb) hgb)
      rw [List.countP_cons, if_neg hga, hz]
      rw [List.takeWhile_cons_of_neg (by simpa using hga),
        List.dropWhile_cons_of_neg (by simpa using hga)]
      constructor <;> rfl

theorem take_drop_sublist (ns : List (SkipListNode K)) (a b : Nat) (hab : a ≤ b) :
    List.Sublist (ns.take a ++ ns.drop b) ns := by
  have h1 : List.Sublist (ns.drop b) (ns.drop a) := by
    rw [show b = a + (b - a) from by omega]
    rw [← List.drop_drop]
    exact List.drop_sublist _ _
  have h2 := List.Sublist.append_left h1 (ns.take a)
  rw [List.take_append_drop] at h2
  exact h2

/-! ## Claim theorems -/

/-- C1 (code bug): the index/list parity invariant is broken by the code.
In the reachable state after `zadd("x",5); zadd("y",5)` (both levels drawn 1)
the call `zrem("x")` erases `x` from the key index even though
`private_delete` — which only inspects the first node whose score is not
below 5, here the node `y` — failed to unlink the node `x`.  Afterwards
`zcard()` is still 2 and the node `x` is still in the skip list, while the
index holds only `y` and `zscore("x")` reports absent: the two structures
disagree on both cardinality and key set. -/
theorem sorted_set_c1_bug :
    Reachable (zrem exTie "x") ∧
    zcard (zrem exTie "x") = 2 ∧
    (zrem exTie "x").dict = [("y", 5)] ∧
    (zrem exTie "x").nodes.map SkipListNode.key = ["y", "x"] ∧
    zscore (zrem exTie "x") "x" = none := by
  refine ⟨?_, by decide, by decide, by decide, by decide⟩
  exact Reachable.zrem_step _ _
    (Reachable.zadd_step _ _ _ _
      (Reachable.zadd_step _ _ _ _ Reachable.empty (by decide)) (by decide))

/-- C2 counterexample: in the reachable state after `zadd("x",5);
zadd("y",5)` with both levels drawn 1, the element `y` is present
(`zscore` finds it, its node is in the chain at rank 1) yet
`get_rank(5, "y")` returns 0 — the claimed "never 0 for a present element"
fails — and `nodeAtRank(rankOf)` lands on the header (position 0), not on
the node holding `y`. -/
theorem sorted_set_c2_counterexample :
    Reachable exTie ∧
    zscore exTie "y" = some 5 ∧
    exTie.nodes.map SkipListNode.key = ["y", "x"] ∧
    get_rank exTie 5 "y" = 0 ∧
    get_element_by_rank exTie (get_rank exTie 5 "y") = some 0 := by
  refine ⟨?_, by decide, by decide, by decide, by decide⟩
  exact Reachable.zadd_step _ _ _ _
    (Reachable.zadd_step _ _ _ _ Reachable.empty (by decide)) (by decide)

/-- C2 amended: on a well-formed chain whose stored scores are pairwise
distinct (and keys pairwise distinct, as the facade maintains absent the C1
bug), every stored element is found by `get_rank` at its 1-based rank
`1 + (count of nodes with strictly smaller score)`, which is never 0, and
`get_element_by_rank` applied to that rank returns the position holding the
element — whatever levels the random generator drew. -/
theorem sorted_set_c2_amended (s : SortedSet K) (hs : SortedNodes s.nodes)
    (hh : HeightsOK s.nodes) (hss : (s.nodes.map SkipListNode.score).Nodup)
    (hks : (s.nodes.map SkipListNode.key).Nodup) (j : Nat)
    (hj : j < s.nodes.length) :
    get_rank s (s.nodes[j]).score (s.nodes[j]).key =
      1 + s.nodes.countP (fun nd => decide (nd.score < (s.nodes[j]).score)) ∧
    get_rank s (s.nodes[j]).score (s.nodes[j]).key ≠ 0 ∧
    get_element_by_rank s (get_rank s (s.nodes[j]).score (s.nodes[j]).key) =
      some (j + 1) ∧
    s.nodes[(j + 1) - 1]? = some s.nodes[j] := by
  have hrk := get_rank_found s hs hh hks hss j hj
  have hcp := countP_lt_score s hs hss j hj
  refine ⟨?_, ?_, ?_, ?_⟩
  · rw [hrk, hcp]
    omega
  · rw [hrk]
    omega
  · rw [hrk]
    exact get_element_by_rank_found s hh (j+1) (by omega) (by omega)
  · rw [Nat.add_sub_cancel]
    exact List.getElem?_eq_getElem hj

/-- Witness for the amended C2 at the concrete state `exABC`, element `b`
(index 1). -/
theorem sorted_set_c2_amended_witness :
    SortedNodes exABC.nodes ∧ HeightsOK exABC.nodes ∧
    (exABC.nodes.map SkipListNode.score).Nodup ∧
    (exABC.nodes.map SkipListNode.key).Nodup ∧ 1 < exABC.nodes.length ∧
    (get_rank exABC (exABC.nodes[1]).score (exABC.nodes[1]).key =
      1 + exABC.nodes.countP
        (fun nd => decide (nd.score < (exABC.nodes[1]).score)) ∧
    get_rank exABC (exABC.nodes[1]).score (exABC.nodes[1]).key ≠ 0 ∧
    get_element_by_rank exABC
      (get_rank exABC (exABC.nodes[1]).score (exABC.nodes[1]).key) = some 2 ∧
    exABC.nodes[2 - 1]? = some exABC.nodes[1]) :=
  ⟨by decide, by decide, by decide, by decide, by decide,
    sorted_set_c2_amended exABC (by decide) (by decide) (by decide) (by decide) 1
      (by decide)⟩

/-- C3 counterexample: in the reachable state after `zadd("x",5);
zadd("y",5)` (levels 1), both stored elements satisfy the range
`[5,5]`, yet `zcount(5,5)` returns 3: `get_rank` fails (returns 0) on the
first-in-range node `y`, and the `unsigned long` arithmetic
`mLength - (rank - 1)` wraps. -/
theorem sorted_set_c3_counterexample :
    Reachable exTie ∧
    zcount exTie 5 5 false false = 3 ∧
    exTie.nodes.countP (fun nd => inRangeB nd ⟨5, 5, false, false⟩) = 2 ∧
    zcount exTie 5 5 false false ≠
      exTie.nodes.countP (fun nd => inRangeB nd ⟨5, 5, false, false⟩) := by
  refine ⟨?_, by decide, by decide, by decide⟩
  exact Reachable.zadd_step _ _ _ _
    (Reachable.zadd_step _ _ _ _ Reachable.empty (by decide)) (by decide)

/-- C3 amended: on a well-formed chain whose stored scores (and keys) are
pairwise distinct, `zcount(min,max,minex,maxex)` returns exactly the number
of stored elements whose score satisfies both bounds, for every range
spec. -/
theorem sorted_set_c3_amended (s : SortedSet K) (hs : SortedNodes s.nodes)
    (hh : HeightsOK s.nodes) (hss : (s.nodes.map SkipListNode.score).Nodup)
    (hks : (s.nodes.map SkipListNode.key).Nodup) (hsz : s.nodes.length < 2^64)
    (mn mx : ℚ) (minex maxex : Bool) :
    zcount s mn mx minex maxex =
      s.nodes.countP (fun nd => inRangeB nd ⟨mn, mx, minex, maxex⟩) :=
  zcount_spec s hs hh hss hks hsz mn mx minex maxex

/-- Witness for the amended C3: scenario 2 of the spec — after
`add("a",1); add("b",2); add("c",3)`, `count(1.5, 3, false, false) = 2`. -/
theorem sorted_set_c3_amended_witness :
    zcount exABC q3half 3 false false = 2 :=
  (sorted_set_c3_amended exABC (by decide) (by decide) (by decide) (by decide)
    (by decide) q3half 3 false false).trans (by decide)

/-- C7: not-found conditions are explicit results, never exceptions, and do
not change the state: on any state, if the key is absent from the index then
`zrem` returns the state unchanged, and `zscore` / `zrank` / `zrevrank`
report absence (the C++ `bool` results modelled as `none`). -/
theorem sorted_set_c7 (s : SortedSet K) (k : K)
    (habs : dictFind s.dict k = none) :
    zrem s k = s ∧ zscore s k = none ∧ zrank s k = none ∧ zrevrank s k = none := by
  refine ⟨?_, ?_, ?_, ?_⟩
  · unfold zrem
    rw [habs]
  · unfold zscore
    rw [habs]
  · unfold zrank zrank_generic
    rw [habs]
  · unfold zrevrank zrank_generic
    rw [habs]

/-- Witness for C7 at the empty container. -/
theorem sorted_set_c7_witness :
    zrem exEmpty "q" = exEmpty ∧ zscore exEmpty "q" = none ∧
    zrank exEmpty "q" = none ∧ zrevrank exEmpty "q" = none :=
  sorted_set_c7 exEmpty "q" (by decide)

/-- C9 (code bug): query results are not independent of the random level
draws.  The same call sequence `zadd("x",5); zadd("y",5); zrank("y")`
returns `2^64 - 1` (a wrapped `0 - 1`) when both nodes draw level 1, but `0`
when `y` draws level 2: `get_rank`'s per-level key check finds `y` only if
some level happens to land on it. -/
theorem sorted_set_c9_bug :
    Reachable exTie ∧ Reachable exTie2 ∧
    zrank exTie "y" = some (2^64 - 1) ∧
    zrank exTie2 "y" = some 0 ∧
    zrank exTie "y" ≠ zrank exTie2 "y" := by
  refine ⟨?_, ?_, by decide, by decide, by decide⟩
  · exact Reachable.zadd_step _ _ _ _
      (Reachable.zadd_step _ _ _ _ Reachable.empty (by decide)) (by decide)
  · exact Reachable.zadd_step _ _ _ _
      (Reachable.zadd_step _ _ _ _ Reachable.empty (by decide)) (by decide)

/-- C10: on every reachable state and all `long` arguments, the rank-based
range walks of `zrange_generic` and `zrange_withscores_generic` return a
result of exactly the normalized `rangelen` entries; every step of the walk
is on a non-null node, so the internal `assert(ln != NULL)` (the `none`
outcome of the modelled walk) can never fire. -/
theorem sorted_set_c10 (s : SortedSet K) (hr : Reachable s) (a b : Int)
    (rev : Bool) :
    (∃ l, zrange_generic s a b rev = some l ∧
      l.length = rangelenOf s.nodes.length a b) ∧
    (∃ l2, zrange_withscores_generic s a b rev = some l2 ∧
      l2.length = rangelenOf s.nodes.length a b) := by
  have hh := (reachable_wf s hr).2
  unfold zrange_generic zrange_withscores_generic
  exact ⟨zrange_core_spec s hh _ a b rev, zrange_core_spec s hh _ a b rev⟩

/-- Witness for C10 at a concrete reachable two-element state and argument
pair. -/
theorem sorted_set_c10_witness :
    (∃ l, zrange_generic exTie 0 (-1) true = some l ∧
      l.length = rangelenOf exTie.nodes.length 0 (-1)) ∧
    (∃ l2, zrange_withscores_generic exTie 0 (-1) true = some l2 ∧
      l2.length = rangelenOf exTie.nodes.length 0 (-1)) :=
  sorted_set_c10 exTie
    (Reachable.zadd_step _ _ _ _
      (Reachable.zadd_step _ _ _ _ Reachable.empty (by decide)) (by decide))
    0 (-1) true

/-- C4: the tie-break policy.  In every reachable state, `private_insert`
links the new node exactly between the maximal prefix of nodes with strictly
smaller score and the first existing node whose score is not strictly less
than the new score — equal-score ordering uses score comparison only.  In
particular, `zadd("x",5); zadd("y",5)` leaves both keys present with
`zcard() = 2` and `zrangebyscore(5,5)` returns both keys (in the order the
tie-break produces: the newer `y` first). -/
theorem sorted_set_c4 :
    (∀ (s : SortedSet K), Reachable s → ∀ (sc : ℚ) (k : K) (h : Nat),
      (private_insert s sc k h).nodes =
        s.nodes.takeWhile (fun nd => decide (nd.score < sc)) ++
          ⟨sc, k, h⟩ :: s.nodes.dropWhile (fun nd => decide (nd.score < sc))) ∧
    zcard exTie = 2 ∧
    exTie.nodes.map SkipListNode.key = ["y", "x"] ∧
    zrangebyscore_generic exTie 5 5 false false false = ["y", "x"] := by
  refine ⟨?_, by decide, by decide, by decide⟩
  intro s hr sc k h
  have hwf := reachable_wf s hr
  rw [private_insert_nodes s hwf.1 hwf.2]
  have hdc : ∀ a b : SkipListNode K, a.score ≤ b.score →
      (fun nd => decide (nd.score < sc)) b = true →
      (fun nd => decide (nd.score < sc)) a = true := by
    intro a b hab hb
    simp only [decide_eq_true_eq] at hb ⊢
    exact lt_of_le_of_lt hab hb
  obtain ⟨ht, hd⟩ := take_drop_countP_eq _ hdc s.nodes hwf.1
  rw [ht, hd]

/-- Witness for C4 at the reachable state `exABC`, inserting score 5/2. -/
theorem sorted_set_c4_witness :
    (private_insert exABC q3half "m" 1).nodes =
      exABC.nodes.takeWhile (fun nd => decide (nd.score < q3half)) ++
        (⟨q3half, "m", 1⟩ : SkipListNode String) ::
          exABC.nodes.dropWhile (fun nd => decide (nd.score < q3half)) :=
  (@sorted_set_c4 String _).1 exABC
    (Reachable.zadd_step _ _ _ _
      (Reachable.zadd_step _ _ _ _
        (Reachable.zadd_step _ _ _ _ Reachable.empty (by decide)) (by decide))
      (by decide))
    q3half "m" 1

/-- C5: round-trip/reversal.  Folding any batch of `zadd` calls with
pairwise-distinct keys (and positive drawn levels) over the empty container,
`zrange(0, N-1)` yields exactly the level-0 key sequence — a permutation of
all N inserted keys, listed in non-decreasing score order — and
`zrevrange(0, N-1)` yields exactly its reverse. -/
theorem sorted_set_c5 (ops : List (K × ℚ × Nat))
    (hknd : (ops.map (fun op => op.1)).Nodup)
    (hhts : ∀ op ∈ ops, 1 ≤ op.2.2) :
    ∃ l, zrange_generic (addAll ops) 0 ((ops.length : Int) - 1) false = some l ∧
      zrange_generic (addAll ops) 0 ((ops.length : Int) - 1) true = some l.reverse ∧
      l.Perm (ops.map (fun op => op.1)) ∧
      l.length = ops.length ∧
      l = (addAll ops).nodes.map SkipListNode.key ∧
      List.Pairwise (fun a b => a ≤ b) ((addAll ops).nodes.map SkipListNode.score) := by
  obtain ⟨hwf, hperm, _, hlen⟩ := addAll_fold_inv ops ⟨[], []⟩
    ⟨List.Pairwise.nil, fun nd hnd => absurd hnd (List.not_mem_nil nd)⟩
    (List.Perm.refl [])
    hknd
    (fun op _ => List.not_mem_nil op.1)
    hhts
  have haddAll : addAll ops = ops.foldl (fun t op => zadd t op.1 op.2.1 op.2.2) ⟨[], []⟩ :=
    rfl
  rw [← haddAll] at hwf hperm hlen
  have hlen2 : (addAll ops).nodes.length = ops.length := by
    rw [hlen]
    simp
  obtain ⟨hfwd, hrev⟩ := zrange_core_full (addAll ops) hwf.2 SkipListNode.key
  refine ⟨(addAll ops).nodes.map SkipListNode.key, ?_, ?_, ?_, ?_, rfl, ?_⟩
  · unfold zrange_generic
    rw [← hfwd]
    rw [show ((addAll ops).nodes.length : Int) = ((ops.length : Int)) from by
      rw [hlen2]]
  · unfold zrange_generic
    rw [← hrev]
    rw [show ((addAll ops).nodes.length : Int) = ((ops.length : Int)) from by
      rw [hlen2]]
  · refine List.Perm.trans hperm ?_
    simp
  · rw [List.length_map, hlen2]
  · exact List.pairwise_map.mpr hwf.1

/-- Witness for C5 at a concrete two-insert batch. -/
theorem sorted_set_c5_witness :
    ∃ l, zrange_generic (addAll [("a", (1 : ℚ), 1), ("b", (2 : ℚ), 2)]) 0
        (((2 : Nat) : Int) - 1) false = some l ∧
      zrange_generic (addAll [("a", (1 : ℚ), 1), ("b", (2 : ℚ), 2)]) 0
        (((2 : Nat) : Int) - 1) true = some l.reverse ∧
      l.Perm ["a", "b"] ∧
      l.length = 2 ∧
      l = (addAll [("a", (1 : ℚ), 1), ("b", (2 : ℚ), 2)]).nodes.map SkipListNode.key ∧
      List.Pairwise (fun a b => a ≤ b)
        ((addAll [("a", (1 : ℚ), 1), ("b", (2 : ℚ), 2)]).nodes.map SkipListNode.score) :=
  sorted_set_c5 [("a", (1 : ℚ), 1), ("b", (2 : ℚ), 2)] (by decide) (by decide)

/-- C8: empty-range conditions.  On any well-formed state, if the range spec
is structurally empty or no stored score satisfies both bounds, then
`zrangebyscore` (in both walk directions over that spec) returns the empty
sequence, `zcount` returns 0, and `zremrangebyscore` removes nothing and
leaves the state unchanged — no error path exists. -/
theorem sorted_set_c8 (s : SortedSet K) (hs : SortedNodes s.nodes)
    (hh : HeightsOK s.nodes) (mn mx : ℚ) (minex maxex : Bool)
    (hempty : structEmpty ⟨mn, mx, minex, maxex⟩ = true ∨
      ∀ nd ∈ s.nodes, inRangeB nd ⟨mn, mx, minex, maxex⟩ = false) :
    zrangebyscore_generic s mn mx false minex maxex = [] ∧
    zrangebyscore_generic s mx mn true maxex minex = [] ∧
    zcount s mn mx minex maxex = 0 ∧
    zremrangebyscore s mn mx minex maxex = s := by
  have hnone : ∀ j (hj : j < s.nodes.length),
      inRangeB s.nodes[j] ⟨mn, mx, minex, maxex⟩ = false := by
    rcases hempty with he | hall
    · intro j hj
      cases hx : inRangeB s.nodes[j] ⟨mn, mx, minex, maxex⟩ with
      | false => rfl
      | true =>
        rw [inRangeB, Bool.and_eq_true] at hx
        exact absurd hx (structEmpty_no_node _ he _)
    · intro j hj
      exact hall _ (List.getElem_mem hj)
  obtain ⟨hfn, hln⟩ := no_node_bounds_none s hs hh ⟨mn, mx, minex, maxex⟩ hnone
  refine ⟨?_, ?_, ?_, ?_⟩
  · unfold zrangebyscore_generic zrbs_core
    simp only [Bool.cond_false]
    rw [hfn]
  · unfold zrangebyscore_generic zrbs_core
    simp only [Bool.cond_true]
    rw [hln]
  · simp only [zcount]
    rw [hfn]
  · unfold zremrangebyscore
    rw [pdrbs_noop s hs hh ⟨mn, mx, minex, maxex⟩ hnone]

/-- Witness for C8 at `exABC` with the non-overlapping range `[10, 20]`. -/
theorem sorted_set_c8_witness :
    zrangebyscore_generic exABC 10 20 false false false = [] ∧
    zrangebyscore_generic exABC 20 10 true false false = [] ∧
    zcount exABC 10 20 false false = 0 ∧
    zremrangebyscore exABC 10 20 false false = exABC :=
  sorted_set_c8 exABC (by decide) (by decide) 10 20 false false
    (Or.inr (by decide))

/-- C6: rank-range deletion with index normalization.  For any state holding
10 keys with strictly increasing scores (and a consistent index entry for
the 6th element), `zremrangebyrank(2, 4)` — normalized and translated to the
1-based inclusive range `[3,5]` — removes exactly 3 elements (`zcard` drops
from 10 to 7) and leaves the remaining ranks contiguous: the 6th originally
inserted element afterwards has 0-based `zrank` 2. -/
theorem sorted_set_c6 (s : SortedSet K) (hlen : s.nodes.length = 10)
    (hstrict : List.Pairwise (fun a b => a.score < b.score) s.nodes)
    (hks : (s.nodes.map SkipListNode.key).Nodup)
    (hh : HeightsOK s.nodes)
    (hdict : dictFind s.dict ((s.nodes.get ⟨5, by omega⟩).key) =
      some ((s.nodes.get ⟨5, by omega⟩).score)) :
    zcard (zremrangebyrank s 2 4) = 7 ∧
    zrank (zremrangebyrank s 2 4) ((s.nodes.get ⟨5, by omega⟩).key) = some 2 := by
  have h5 : 5 < s.nodes.length := by omega
  have hget : s.nodes.get ⟨5, by omega⟩ = s.nodes[5] := List.get_eq_getElem _ _
  rw [hget] at hdict ⊢
  have hs : SortedNodes s.nodes := hstrict.imp le_of_lt
  have hss : (s.nodes.map SkipListNode.score).Nodup :=
    List.pairwise_map.mpr (hstrict.imp fun h => ne_of_lt h)
  have hzr : zremrangebyrank s 2 4 = (private_delete_range_by_rank s 3 5).1 := by
    simp only [zremrangebyrank]
    rw [hlen]
    rw [if_neg (by decide : ¬ ((2:Int) < 0)), if_neg (by decide : ¬ ((4:Int) < 0))]
    rw [if_neg (by decide : ¬ ((2:Int) < 0))]
    rw [if_neg (by decide : ¬ ((2:Int) > 4 ∨ (2:Int) ≥ (((10:Nat)):Int)))]
    rw [if_neg (by decide : ¬ ((4:Int) ≥ (((10:Nat)):Int)))]
    rw [show ((2:Int) + 1).toNat = 3 from by decide]
    rw [show ((4:Int) + 1).toNat = 5 from by decide]
  have hspec := private_delete_range_by_rank_spec s hh 3 5 (by omega) (by omega)
    (by omega)
  rw [hspec] at hzr
  have hseg : (5 + 1 - 3 : Nat) = 3 := by norm_num
  have h31 : (3 - 1 : Nat) = 2 := by norm_num
  rw [hseg, h31] at hzr
  dsimp only at hzr
  have hsub := take_drop_sublist s.nodes 2 5 (by omega)
  have hs' : SortedNodes (s.nodes.take 2 ++ s.nodes.drop 5) := hs.sublist hsub
  have hh' : HeightsOK (s.nodes.take 2 ++ s.nodes.drop 5) := fun nd hnd =>
    hh nd (hsub.mem hnd)
  have hks' : ((s.nodes.take 2 ++ s.nodes.drop 5).map SkipListNode.key).Nodup :=
    hks.sublist (hsub.map SkipListNode.key)
  have hss' : ((s.nodes.take 2 ++ s.nodes.drop 5).map SkipListNode.score).Nodup :=
    hss.sublist (hsub.map SkipListNode.score)
  have hlen' : (s.nodes.take 2 ++ s.nodes.drop 5).length = 7 := by
    simp only [List.length_append, List.length_take, List.length_drop, hlen]
    decide
  have h2b : 2 < (s.nodes.take 2 ++ s.nodes.drop 5).length := by omega
  have hidx : (s.nodes.take 2 ++ s.nodes.drop 5)[2] = s.nodes[5] := by
    rw [List.getElem_append_right (by
      simp only [List.length_take]
      omega)]
    rw [List.getElem_drop]
    exact getElem_idx_congr (by simp only [List.length_take]; omega)
      (by simp only [List.length_take]; omega) h5
  have hnotin : (s.nodes[5]).key ∉ ((s.nodes.drop 2).take 3).map SkipListNode.key := by
    intro hmem
    rw [List.mem_iff_getElem] at hmem
    obtain ⟨i, hi, he⟩ := hmem
    have hil : i < 3 := by
      simp only [List.length_map, List.length_take, List.length_drop, hlen] at hi
      omega
    have hi2 : 2 + i < s.nodes.length := by omega
    have hgm : (((s.nodes.drop 2).take 3).map SkipListNode.key)[i] =
        (s.nodes[2+i]).key := by
      rw [List.getElem_map, List.getElem_take, List.getElem_drop]
    rw [hgm] at he
    have := nodes_field_inj SkipListNode.key s.nodes hks (2+i) 5 hi2 h5 he
    omega
  constructor
  · rw [hzr]
    simp only [zcard, List.length_append, List.length_take, List.length_drop, hlen]
    decide
  · rw [hzr]
    unfold zrank zrank_generic
    have hfind : dictFind
        (eraseKeys s.dict (((s.nodes.drop 2).take 3).map SkipListNode.key))
        ((s.nodes[5]).key) = some ((s.nodes[5]).score) := by
      rw [dictFind_eraseKeys_of_not_mem _ _ _ hnotin]
      exact hdict
    rw [hfind]
    dsimp only
    have hrk := get_rank_found ⟨s.nodes.take 2 ++ s.nodes.drop 5,
        eraseKeys s.dict (((s.nodes.drop 2).take 3).map SkipListNode.key)⟩
      hs' hh' hks' hss' 2 h2b
    rw [hidx] at hrk
    rw [hrk]
    rw [show sub64 (2 + 1) 1 = 2 from by decide]
    rw [if_neg (by simp)]

/-- Witness for C6 at the concrete ten-element state `exTen`. -/
theorem sorted_set_c6_witness :
    zcard (zremrangebyrank exTen 2 4) = 7 ∧
    zrank (zremrangebyrank exTen 2 4) ((exTen.nodes.get ⟨5, by decide⟩).key) =
      some 2 :=
  sorted_set_c6 exTen (by decide) (by decide) (by decide) (by decide) (by decide)

end SortedSetSpec
